import Mathlib

/-
  Verification development for the ORBIT repository slice consisting of
  ORBIT/phases/design/monopile_design.py and
  ORBIT/phases/install/quayside_assembly_tow/moored.py.

  The design module is embedded as pure functions over rationals; the
  floating-point root finder (scipy fsolve) and the power/log routines are
  passed in as parameters of the embedding, since their numeric behaviour
  is outside the algebraic content of the source.

  The discrete-event production core (the simulation environment, the
  WetStorage bounded buffer and the two assembly-line process classes) is
  imported by moored.py but is not part of the source slice; it is
  modelled from the specification as an explicit event-queue state
  machine, and the orchestration methods of MooredSubInstallation are
  embedded on top of that model.
-/

namespace ORBIT

/-- Python values stored in the sizing dictionaries: numbers or strings. -/
inductive PyVal
  | num (q : ℚ)
  | str (s : String)
deriving DecidableEq

/-- Ordered association list standing for a Python dict (insertion order). -/
abbrev Dict := List (String × PyVal)

/-- Lookup in an association list; first match wins. -/
def lookupKey {α : Type} (d : List (String × α)) (k : String) : Option α :=
  match d with
  | [] => none
  | kv :: rest => if kv.1 = k then some kv.2 else lookupKey rest k

/-- Python dict assignment: overwrite in place if the key exists, else append. -/
def setKey {α : Type} (d : List (String × α)) (k : String) (v : α) :
    List (String × α) :=
  if d.any (fun kv => kv.1 = k) then
    d.map (fun kv => if kv.1 = k then (k, v) else kv)
  else d ++ [(k, v)]

/-- Numeric content of an optional dict entry (0 when absent or a string). -/
def asNum (v : Option PyVal) : ℚ :=
  match v with
  | some (PyVal.num q) => q
  | _ => 0

/-- The numeric collaborators of MonopileDesign that are not algebraic:
    fsolveRoot stands for the value fsolve returns for the pile-diameter
    equation (monopile_design.py line 170), fpow for the floating-point
    power operator used with non-integer exponents, and flog for math.log. -/
structure FloatOps where
  fsolveRoot : ℚ
  fpow : ℚ → ℚ → ℚ
  flog : ℚ → ℚ
deriving Inhabited

/-- The optional entries of the monopile_design configuration section
    (expected_config of monopile_design.py, lines 27-46), each None when
    the key is absent, mirroring kwargs.get(key, default). -/
structure MonopileKwargs where
  yield_stress : Option ℚ
  load_factor : Option ℚ
  material_factor : Option ℚ
  monopile_density : Option ℚ
  monopile_modulus : Option ℚ
  monopile_tp_connection_thickness : Option ℚ
  transition_piece_density : Option ℚ
  transition_piece_thickness : Option ℚ
  transition_piece_length : Option ℚ
  soil_coefficient : Option ℚ
  air_density : Option ℚ
  weibull_scale_factor : Option ℚ
  weibull_shape_factor : Option ℚ
  turb_length_scale : Option ℚ
  design_time : Option ℚ
  design_cost : Option ℚ
  monopile_steel_cost : Option ℚ
  tp_steel_cost : Option ℚ
  airgap : Option ℚ
deriving DecidableEq

/-- A MonopileKwargs with every optional key absent. -/
def emptyKwargs : MonopileKwargs :=
  ⟨none, none, none, none, none, none, none, none, none, none,
   none, none, none, none, none, none, none, none, none⟩

/-- The required configuration of MonopileDesign (expected_config). -/
structure DesignConfig where
  mean_windspeed : ℚ
  depth : ℚ
  num_turbines : ℕ
  rotor_diameter : ℚ
  hub_height : ℚ
  rated_windspeed : ℚ
  monopile_design : MonopileKwargs
deriving DecidableEq

namespace MonopileDesign

/-- The float64 value of math.pi, as an exact rational. -/
def mathPi : ℚ := 884279719003555 / 281474976710656

/-- monopile_design.py line 394: tp = 0.00635 + Dp / 100. -/
def pile_thickness (Dp : ℚ) : ℚ := 0.00635 + Dp / 100

/-- monopile_design.py line 416: Ip = 0.125 * ((Dp - tp) ** 3) * tp * pi. -/
def pile_moment (Dp tp : ℚ) : ℚ := 0.125 * ((Dp - tp) ^ 3) * tp * mathPi

/-- monopile_design.py lines 369-372 (the 0.2 exponent goes through the
    floating-point power routine fpow). -/
def pile_embedment_length (ops : FloatOps) (kw : MonopileKwargs) (Ip : ℚ) : ℚ :=
  let monopile_modulus := kw.monopile_modulus.getD 200000000000
  let soil_coefficient := kw.soil_coefficient.getD 4000000
  4 * ops.fpow ((monopile_modulus * Ip) / soil_coefficient) 0.2

/-- monopile_design.py lines 345-347. -/
def pile_mass (kw : MonopileKwargs) (Dp tp Lt : ℚ) : ℚ :=
  let density := kw.monopile_density.getD 7860
  let volume := (mathPi / 4) * (Dp ^ 2 - (Dp - tp) ^ 2) * Lt
  density * volume / 907.185

/-- monopile_design.py lines 439-441. -/
def pile_diam_equation (Dp yield_stress material_factor M_50y : ℚ) : ℚ :=
  let A := (yield_stress * mathPi) / (4 * material_factor * M_50y)
  A * ((0.99 * Dp - 0.00635) ^ 3) * (0.00635 + 0.01 * Dp) - Dp

/-- monopile_design.py lines 550-552. -/
def calculate_thrust_coefficient (rated_windspeed : ℚ) : ℚ :=
  min (3.5 * (2 * rated_windspeed + 3.5) / rated_windspeed ^ 2) 1

/-- monopile_design.py lines 576-580. -/
def calculate_50year_extreme_ws (ops : FloatOps) (kw : MonopileKwargs)
    (mean_windspeed : ℚ) : ℚ :=
  let scale_factor := kw.weibull_scale_factor.getD mean_windspeed
  let shape_factor := kw.weibull_shape_factor.getD 2
  scale_factor * ops.fpow (-(ops.flog (1 - ops.fpow 0.98 (1 / 52596)))) (1 / shape_factor)

/-- monopile_design.py lines 609-620. -/
def calculate_50year_extreme_gust (ops : FloatOps) (kw : MonopileKwargs)
    (mean_windspeed rotor_diameter rated_windspeed : ℚ) : ℚ :=
  let length_scale := kw.turb_length_scale.getD 340.2
  let U_50y := calculate_50year_extreme_ws ops kw mean_windspeed
  let U_1y := 0.8 * U_50y
  min (1.35 * (U_1y - rated_windspeed))
    ((3.3 * 0.11 * U_1y) / (1 + (0.1 * rotor_diameter) / (length_scale / 8)))

/-- monopile_design.py lines 517-529. -/
def calculate_50year_wind_load (ops : FloatOps) (kw : MonopileKwargs)
    (mean_windspeed rotor_diameter rated_windspeed : ℚ) : ℚ :=
  let dens := kw.air_density.getD 1.225
  let swept_area := mathPi * (rotor_diameter / 2) ^ 2
  let ct := calculate_thrust_coefficient rated_windspeed
  let U_eog := calculate_50year_extreme_gust ops kw mean_windspeed rotor_diameter rated_windspeed
  0.5 * dens * swept_area * ct * (rated_windspeed + U_eog) ^ 2

/-- monopile_design.py lines 481-492. -/
def calculate_50year_wind_moment (ops : FloatOps) (kw : MonopileKwargs)
    (mean_windspeed site_depth rotor_diameter hub_height rated_windspeed : ℚ) : ℚ :=
  let load_factor := kw.load_factor.getD 1.35
  let F_50y := calculate_50year_wind_load ops kw mean_windspeed rotor_diameter rated_windspeed
  F_50y * (site_depth + hub_height) * load_factor

/-- monopile_design.py lines 155-197: the sizing dict built by
    design_monopile, in source insertion order.  The diameter entry is the
    root fsolve returns (line 170), passed in through ops. -/
def design_monopile (ops : FloatOps) (kw : MonopileKwargs)
    (_mean_windspeed site_depth _rotor_diameter _hub_height _rated_windspeed : ℚ) :
    Dict :=
  let diameter := ops.fsolveRoot
  let thickness := pile_thickness diameter
  let moment := pile_moment diameter thickness
  let embedment := pile_embedment_length ops kw moment
  let airgap := kw.airgap.getD 10
  let length := embedment + site_depth + airgap
  let weight := pile_mass kw diameter thickness length
  [("diameter", PyVal.num diameter), ("thickness", PyVal.num thickness),
   ("moment", PyVal.num moment), ("embedment_length", PyVal.num embedment),
   ("length", PyVal.num length), ("weight", PyVal.num weight),
   ("deck_space", PyVal.num (diameter ^ 2)), ("type", PyVal.str "Monopile")]

/-- monopile_design.py lines 199-239: the transition-piece dict, in source
    insertion order. -/
def design_transition_piece (kw : MonopileKwargs) (D_p t_p : ℚ) : Dict :=
  let t_c := kw.monopile_tp_connection_thickness.getD 0
  let dens_tp := kw.transition_piece_density.getD 7860
  let t_tp := kw.transition_piece_thickness.getD t_p
  let L_tp := kw.transition_piece_length.getD 25
  let D_tp := D_p + 2 * (t_c + t_tp)
  let m_tp := (dens_tp * (D_p + 2 * t_c + t_tp) * mathPi * t_tp * L_tp) / 907.185
  [("type", PyVal.str "Transition Piece"), ("thickness", PyVal.num t_tp),
   ("diameter", PyVal.num D_tp), ("weight", PyVal.num m_tp),
   ("length", PyVal.num L_tp), ("deck_space", PyVal.num (D_tp ^ 2))]

/-- The mutable part of a MonopileDesign instance: the _outputs dict
    (monopile_design.py line 80 sets it to the empty dict). -/
structure DesignObj where
  _outputs : List (String × Dict)
deriving DecidableEq

/-- monopile_design.py line 80: a freshly constructed instance. -/
def newObj : DesignObj := ⟨[]⟩

/-- monopile_design.py lines 82-102: run() stores the monopile sizing and
    then the transition-piece sizing into _outputs. -/
def run (ops : FloatOps) (cfg : DesignConfig) (st : DesignObj) : DesignObj :=
  let kw := cfg.monopile_design
  let mono := design_monopile ops kw cfg.mean_windspeed cfg.depth
    cfg.rotor_diameter cfg.hub_height cfg.rated_windspeed
  let o1 := setKey st._outputs "monopile" mono
  let tp := design_transition_piece kw
    (asNum (lookupKey mono "diameter")) (asNum (lookupKey mono "thickness"))
  ⟨setKey o1 "transition_piece" tp⟩

/-- monopile_design.py lines 241-250: the design_result property raises
    when _outputs is empty, else returns it. -/
def design_result (st : DesignObj) : Except String (List (String × Dict)) :=
  if st._outputs = [] then Except.error "Has MonopileDesign been ran yet?"
  else Except.ok st._outputs

/-- monopile_design.py lines 293-306: monopile steel cost.  Python
    evaluates self.defaults[_key] before the .get, so a missing library
    default raises even when the config supplies the key; the library
    defaults live outside this source slice and are a parameter here. -/
def monopile_steel_cost (kw : MonopileKwargs) (default_msc : Option ℚ) :
    Except String ℚ :=
  match default_msc with
  | none => Except.error "Cost of monopile steel not found."
  | some d => Except.ok (kw.monopile_steel_cost.getD d)

/-- monopile_design.py lines 308-323: transition-piece steel cost. -/
def tp_steel_cost (kw : MonopileKwargs) (default_tsc : Option ℚ) :
    Except String ℚ :=
  match default_tsc with
  | none => Except.error "Cost of transition piece steel not found."
  | some d => Except.ok (kw.tp_steel_cost.getD d)

/-- The dict _outputs[k], defaulting to the empty dict. -/
def getDict (o : List (String × Dict)) (k : String) : Dict :=
  (lookupKey o k).getD []

/-- monopile_design.py lines 275-291: the material_cost property raises
    when _outputs is empty, else prices the weights. -/
def material_cost (cfg : DesignConfig) (default_msc default_tsc : Option ℚ)
    (st : DesignObj) : Except String (List (String × ℚ)) :=
  if st._outputs = [] then Except.error "Has MonopileDesign been ran yet?"
  else
    let mono_weight := asNum (lookupKey (getDict st._outputs "monopile") "weight") *
      (cfg.num_turbines : ℚ)
    let tp_weight := asNum (lookupKey (getDict st._outputs "transition_piece") "weight") *
      (cfg.num_turbines : ℚ)
    match monopile_steel_cost cfg.monopile_design default_msc,
          tp_steel_cost cfg.monopile_design default_tsc with
    | Except.ok mc, Except.ok tc =>
        Except.ok [("monopile", mono_weight * mc), ("transition_piece", tp_weight * tc)]
    | Except.error m, _ => Except.error m
    | _, Except.error m => Except.error m

end MonopileDesign

/-! ## The discrete-event production core

Modelled from the spec: the simulation environment, the WetStorage bounded
buffer and the SubstructureAssemblyLine / TurbineAssemblyLine processes are
imported by moored.py from ORBIT.core and the quayside common module, which
are not part of this source slice.  Following the specification, the core
is a single-threaded virtual-time scheduler: an event queue ordered by
(time, sequence); bounded storage with blocking FIFO put/get; substructure
lines that draw from a shared work list, occupy the line for takt_time and
deposit into wet storage; turbine lines that take from wet storage, occupy
the line for the turbine cadence and deposit into assembly storage. -/

/-- Simulated time, in hours. -/
abbrev Time := ℚ

/-- Process identity: substructure line i or turbine line i (1-based ids,
    matching the i + 1 arguments of moored.py lines 92 and 113). -/
inductive Proc
  | sub (i : ℕ)
  | turb (i : ℕ)
deriving DecidableEq

/-- A scheduled resumption: ordered by (time, seq); seq is assigned from a
    monotone counter at scheduling time (deterministic tie-break). -/
structure Event where
  time : Time
  seq : ℕ
  target : Proc
deriving DecidableEq

/-- Modelled from the spec: a bounded StorageResource with FIFO waiter
    queues (capacity never changes after construction). -/
structure StorageResource where
  capacity : ℕ
  items : List ℕ
  put_waiters : List Proc
  get_waiters : List Proc
deriving DecidableEq

/-- Modelled from the spec: WetStorage construction; a capacity of zero is
    rejected at construction as a configuration error, never clamped. -/
def WetStorage.init (capacity : ℕ) : Except String StorageResource :=
  if capacity = 0 then
    Except.error "ConfigurationError: storage capacity must be positive"
  else Except.ok ⟨capacity, [], [], []⟩

/-- State of a substructure assembly line (spec 4.3: per unit it claims one
    entry of the shared work list, occupies the line for takt_time, then
    deposits into wet storage, blocking while the buffer is full). -/
inductive SubState
  | start
  | producing
  | putBlocked
  | done
deriving DecidableEq

/-- State of a turbine assembly line (spec 4.3: it takes one substructure
    from wet storage, occupies the line for the turbine cadence — recorded
    in the state as the time assembly began — then deposits into assembly
    storage, blocking while that buffer is full). -/
inductive TurbState
  | start
  | getBlocked
  | assembling (t0 : Time)
  | putBlocked (t0 : Time)
deriving DecidableEq

/-- The whole simulation state.  subLog records one (line id, time) entry
    per deposit into wet storage, getLog one entry per removal from wet
    storage, turbLog one entry per deposit into assembly storage; each is
    appended at the simulated instant the operation happens. -/
structure SimState where
  now : Time
  nextSeq : ℕ
  queue : List Event
  wet : StorageResource
  assembly : StorageResource
  toAssemble : ℕ
  subs : List SubState
  turbs : List TurbState
  subLog : List (ℕ × Time)
  getLog : List (ℕ × Time)
  turbLog : List (ℕ × Time)
deriving DecidableEq

/-- The configuration slice of moored.py expected_config that drives the
    production stage.  The turbine cadence is carried explicitly because
    TurbineAssemblyLine (which derives it from the turbine dict) is outside
    this source slice. -/
structure PortConfig where
  sub_assembly_lines : ℕ
  sub_storage : Option ℕ
  turbine_assembly_cranes : ℕ
  assembly_storage : Option ℕ
deriving DecidableEq

/-- Configuration for MooredSubInstallation's production stage. -/
structure Config where
  takt_time : Time
  num_turbines : ℕ
  turbine_takt : Time
  port : PortConfig
deriving DecidableEq

/-- Enqueue a resumption for p at absolute time t, stamping it with the
    next sequence number. -/
def schedule (t : Time) (p : Proc) (s : SimState) : SimState :=
  { s with queue := s.queue ++ [⟨t, s.nextSeq, p⟩], nextSeq := s.nextSeq + 1 }

/-- A successful put wakes the earliest get waiter: it is removed from the
    FIFO queue and scheduled at the current instant. -/
def wakeWetGetter (s : SimState) : SimState :=
  match s.wet.get_waiters with
  | [] => s
  | g :: rest => schedule s.now g { s with wet := { s.wet with get_waiters := rest } }

/-- A successful get wakes the earliest put waiter. -/
def wakeWetPutter (s : SimState) : SimState :=
  match s.wet.put_waiters with
  | [] => s
  | g :: rest => schedule s.now g { s with wet := { s.wet with put_waiters := rest } }

/-- Wake the earliest get waiter of assembly storage (no consumer of that
    buffer exists in this stage, so the queue stays empty in any run). -/
def wakeAsmGetter (s : SimState) : SimState :=
  match s.assembly.get_waiters with
  | [] => s
  | g :: rest =>
      schedule s.now g { s with assembly := { s.assembly with get_waiters := rest } }

/-- A successful put into assembly storage wakes its earliest put waiter
    counterpart on the get side; the put-waiter side is woken by gets. -/
def wakeAsmPutter (s : SimState) : SimState :=
  match s.assembly.put_waiters with
  | [] => s
  | g :: rest =>
      schedule s.now g { s with assembly := { s.assembly with put_waiters := rest } }

/-- Substructure line i claims the next entry of the shared work list: if
    the list is exhausted the line completes, otherwise it occupies the
    line for takt_time (spec 4.3 step 2). -/
def subClaimWork (cfg : Config) (i : ℕ) (s : SimState) : SimState :=
  match s.toAssemble with
  | 0 => { s with subs := s.subs.set (i - 1) SubState.done }
  | n + 1 =>
      schedule (s.now + cfg.takt_time) (Proc.sub i)
        { s with toAssemble := n, subs := s.subs.set (i - 1) SubState.producing }

/-- Substructure line i attempts to deposit its finished unit into wet
    storage.  With space available it appends, logs the completion, wakes
    the earliest get waiter and claims its next unit; with the buffer full
    it blocks in the FIFO put queue (re-joining at the front when the
    attempt is a woken retry, preserving arrival order). -/
def subAttemptPut (cfg : Config) (i : ℕ) (first : Bool) (s : SimState) : SimState :=
  if s.wet.items.length < s.wet.capacity then
    let s1 := { s with wet := { s.wet with items := s.wet.items ++ [i] },
                       subLog := s.subLog ++ [(i, s.now)] }
    subClaimWork cfg i (wakeWetGetter s1)
  else
    let pw := if first then s.wet.put_waiters ++ [Proc.sub i]
      else Proc.sub i :: s.wet.put_waiters
    { s with subs := s.subs.set (i - 1) SubState.putBlocked,
             wet := { s.wet with put_waiters := pw } }

/-- Turbine line i attempts to take a substructure from wet storage.  With
    an item available it removes the oldest, logs the removal, wakes the
    earliest put waiter and starts assembling (cadence turbine_takt); with
    the buffer empty it blocks in the FIFO get queue. -/
def turbAttemptGet (cfg : Config) (i : ℕ) (first : Bool) (s : SimState) : SimState :=
  match s.wet.items with
  | _ :: rest =>
      let s1 := { s with wet := { s.wet with items := rest },
                         getLog := s.getLog ++ [(i, s.now)] }
      let s2 := wakeWetPutter s1
      schedule (s2.now + cfg.turbine_takt) (Proc.turb i)
        { s2 with turbs := s2.turbs.set (i - 1) (TurbState.assembling s2.now) }
  | [] =>
      let gw := if first then s.wet.get_waiters ++ [Proc.turb i]
        else Proc.turb i :: s.wet.get_waiters
      { s with turbs := s.turbs.set (i - 1) TurbState.getBlocked,
               wet := { s.wet with get_waiters := gw } }

/-- Turbine line i attempts to deposit its assembled turbine into assembly
    storage, then immediately attempts to take its next substructure; with
    the buffer full it blocks in the FIFO put queue. -/
def turbAttemptPut (cfg : Config) (i : ℕ) (t0 : Time) (first : Bool)
    (s : SimState) : SimState :=
  if s.assembly.items.length < s.assembly.capacity then
    let s1 := { s with assembly := { s.assembly with items := s.assembly.items ++ [i] },
                       turbLog := s.turbLog ++ [(i, s.now)] }
    turbAttemptGet cfg i true (wakeAsmGetter s1)
  else
    let pw := if first then s.assembly.put_waiters ++ [Proc.turb i]
      else Proc.turb i :: s.assembly.put_waiters
    { s with turbs := s.turbs.set (i - 1) (TurbState.putBlocked t0),
             assembly := { s.assembly with put_waiters := pw } }

/-- Resume the named process: run it from its recorded suspension point to
    its next suspension point (spec 4.3 state machine). -/
def resume (cfg : Config) (p : Proc) (s : SimState) : SimState :=
  match p with
  | Proc.sub i =>
      match s.subs[i - 1]? with
      | some SubState.start => subClaimWork cfg i s
      | some SubState.producing => subAttemptPut cfg i true s
      | some SubState.putBlocked => subAttemptPut cfg i false s
      | _ => s
  | Proc.turb i =>
      match s.turbs[i - 1]? with
      | some TurbState.start => turbAttemptGet cfg i true s
      | some TurbState.getBlocked => turbAttemptGet cfg i false s
      | some (TurbState.assembling t0) => turbAttemptPut cfg i t0 true s
      | some (TurbState.putBlocked t0) => turbAttemptPut cfg i t0 false s
      | none => s

/-- Lexicographic (time, seq) comparison of events. -/
def Event.before (a b : Event) : Bool :=
  if a.time < b.time then true
  else if b.time < a.time then false
  else decide (a.seq ≤ b.seq)

/-- The earliest pending event by (time, seq). -/
def pickNext : List Event → Option Event
  | [] => none
  | e :: es =>
      match pickNext es with
      | none => some e
      | some m => if Event.before e m then some e else some m

/-- Process one event: advance the clock to its time, remove it from the
    queue and resume its target. -/
def processEvent (cfg : Config) (s : SimState) (e : Event) : SimState :=
  resume cfg e.target
    { s with now := e.time,
             queue := s.queue.filter (fun x => decide (x.seq ≠ e.seq)) }

/-- One scheduler step: pop the earliest event and process it; none when
    the queue is empty (the run is over). -/
def step (cfg : Config) (s : SimState) : Option SimState :=
  (pickNext s.queue).map (processEvent cfg s)

/-- Iterate the scheduler for at most n events (fixed point once the queue
    is empty). -/
def stepN (cfg : Config) : ℕ → SimState → SimState
  | 0, s => s
  | n + 1, s =>
      match step cfg s with
      | none => s
      | some s' => stepN cfg n s'

/-- The empty simulation environment at time zero; the storages are
    replaced during setup. -/
def initialState : SimState :=
  { now := 0, nextSeq := 0, queue := [],
    wet := ⟨1, [], [], []⟩, assembly := ⟨1, [], [], []⟩,
    toAssemble := 0, subs := [], turbs := [],
    subLog := [], getLog := [], turbLog := [] }

/-- Register substructure line i + 1 with the environment and start it
    (moored.py lines 95-96: register appends the process, start schedules
    its first resumption at the current instant). -/
def addSubLine (s : SimState) (i : ℕ) : SimState :=
  schedule s.now (Proc.sub (i + 1)) { s with subs := s.subs ++ [SubState.start] }

/-- Register turbine line i + 1 with the environment and start it
    (moored.py lines 116-117). -/
def addTurbLine (s : SimState) (i : ℕ) : SimState :=
  schedule s.now (Proc.turb (i + 1)) { s with turbs := s.turbs ++ [TurbState.start] }

namespace MooredSubInstallation

/-- moored.py lines 71-96: build wet storage with capacity
    port.get("sub_storage", 2), set up the shared work list
    [1] * num_turbines, then register and start sub_assembly_lines
    substructure lines, all depositing into the one wet storage.  The
    negative-cadence rejection is modelled from the spec (section 7: a
    negative cadence is a ConfigurationError, fatal at setup; the
    validate_config layer is outside this source slice). -/
def initialize_substructure_production (cfg : Config) (s : SimState) :
    Except String SimState :=
  if cfg.takt_time < 0 then
    Except.error "ConfigurationError: negative cadence"
  else
    match WetStorage.init (cfg.port.sub_storage.getD 2) with
    | Except.error m => Except.error m
    | Except.ok w =>
        Except.ok ((List.range cfg.port.sub_assembly_lines).foldl addSubLine
          { s with wet := w, toAssemble := cfg.num_turbines })

/-- moored.py lines 98-117: build assembly storage with capacity
    port.get("assembly_storage", 2), then register and start one turbine
    assembly line per crane, each consuming from the shared wet storage
    and depositing into the one assembly storage. -/
def initialize_turbine_assembly (cfg : Config) (s : SimState) :
    Except String SimState :=
  if cfg.turbine_takt < 0 then
    Except.error "ConfigurationError: negative cadence"
  else
    match WetStorage.init (cfg.port.assembly_storage.getD 2) with
    | Except.error m => Except.error m
    | Except.ok a =>
        Except.ok ((List.range cfg.port.turbine_assembly_cranes).foldl addTurbLine
          { s with assembly := a })

/-- moored.py lines 60-69: substructure production first, then turbine
    assembly. -/
def setup_simulation (cfg : Config) : Except String SimState :=
  match initialize_substructure_production cfg initialState with
  | Except.error m => Except.error m
  | Except.ok s1 => initialize_turbine_assembly cfg s1

end MooredSubInstallation

/-- A substructure line holds a claimed work unit while producing or while
    blocked on a full wet storage. -/
def SubState.holding : SubState → Bool
  | SubState.producing => true
  | SubState.putBlocked => true
  | _ => false

/-- A turbine line holds a substructure while assembling or while blocked
    on a full assembly storage. -/
def TurbState.holding : TurbState → Bool
  | TurbState.assembling _ => true
  | TurbState.putBlocked _ => true
  | _ => false

/-- Number of substructure lines currently holding a claimed unit. -/
def subHolding (s : SimState) : ℕ := s.subs.countP SubState.holding

/-- Number of turbine lines currently holding a substructure. -/
def turbHolding (s : SimState) : ℕ := s.turbs.countP TurbState.holding

/-- e is an earliest event of the queue under the (time, seq) order. -/
def IsNext (q : List Event) (e : Event) : Prop :=
  e ∈ q ∧ ∀ x ∈ q, Event.before e x = true

/-- The scheduler step as a relation: any earliest event may be processed.
    Determinism of the engine is the statement that this relation is a
    partial function. -/
def StepRel (cfg : Config) (s s' : SimState) : Prop :=
  ∃ e, IsNext s.queue e ∧ s' = processEvent cfg s e

/-- n-step runs of the scheduler relation. -/
inductive RunRel (cfg : Config) : ℕ → SimState → SimState → Prop
  | refl (s : SimState) : RunRel cfg 0 s s
  | step {s s' s'' : SimState} {n : ℕ} :
      StepRel cfg s s' → RunRel cfg n s' s'' → RunRel cfg (n + 1) s s''

/-- The state setup_simulation produces when no configuration error fires:
    one registered-and-started process per substructure line and per crane,
    both storages empty at their configured capacities, and the shared work
    list holding num_turbines units. -/
def setupState (cfg : Config) : SimState :=
  { now := 0,
    nextSeq := cfg.port.sub_assembly_lines + cfg.port.turbine_assembly_cranes,
    queue :=
      (List.range cfg.port.sub_assembly_lines).map
        (fun j => ⟨0, j, Proc.sub (j + 1)⟩) ++
      (List.range cfg.port.turbine_assembly_cranes).map
        (fun j => ⟨0, cfg.port.sub_assembly_lines + j, Proc.turb (j + 1)⟩),
    wet := ⟨cfg.port.sub_storage.getD 2, [], [], []⟩,
    assembly := ⟨cfg.port.assembly_storage.getD 2, [], [], []⟩,
    toAssemble := cfg.num_turbines,
    subs := List.replicate cfg.port.sub_assembly_lines SubState.start,
    turbs := List.replicate cfg.port.turbine_assembly_cranes TurbState.start,
    subLog := [], getLog := [], turbLog := [] }

/-- A small complete scenario: one substructure line at takt 4 h, two
    turbines, one crane at cadence 6 h, default storages. -/
def cfgA : Config :=
  { takt_time := 4, num_turbines := 2, turbine_takt := 6,
    port := { sub_assembly_lines := 1, sub_storage := none,
              turbine_assembly_cranes := 1, assembly_storage := none } }

/-- The initial state of the cfgA scenario. -/
def s0A : SimState := setupState cfgA

/-- A configuration requesting a zero-capacity wet storage. -/
def cfgZero : Config :=
  { takt_time := 4, num_turbines := 2, turbine_takt := 6,
    port := { sub_assembly_lines := 1, sub_storage := some 0,
              turbine_assembly_cranes := 1, assembly_storage := none } }

/-- A configuration requesting a zero-capacity assembly storage. -/
def cfgZeroAsm : Config :=
  { takt_time := 4, num_turbines := 2, turbine_takt := 6,
    port := { sub_assembly_lines := 1, sub_storage := none,
              turbine_assembly_cranes := 1, assembly_storage := some 0 } }

/-- The basic inductive invariant of the production core, preserved by
    every scheduler step: registry sizes, sequence-number freshness and
    distinctness, clock monotonicity, the storage capacity bounds, and the
    unit-conservation accounting that ties the logs, the shared work list
    and the lines holding units to num_turbines. -/
structure InvA (cfg : Config) (s : SimState) : Prop where
  subs_len : s.subs.length = cfg.port.sub_assembly_lines
  turbs_len : s.turbs.length = cfg.port.turbine_assembly_cranes
  seq_lt : ∀ e ∈ s.queue, e.seq < s.nextSeq
  seq_nodup : (s.queue.map Event.seq).Nodup
  time_ge : ∀ e ∈ s.queue, s.now ≤ e.time
  wet_cap : s.wet.items.length ≤ s.wet.capacity
  asm_cap : s.assembly.items.length ≤ s.assembly.capacity
  conservation : s.subLog.length + s.toAssemble + subHolding s = cfg.num_turbines
  done_work : (∃ st ∈ s.subs, st = SubState.done) → s.toAssemble = 0
  wet_balance : s.getLog.length + s.wet.items.length = s.subLog.length
  asm_balance : s.turbLog.length + turbHolding s = s.getLog.length
  asm_items_le : s.assembly.items.length ≤ s.turbLog.length
  wet_cap_pos : 1 ≤ s.wet.capacity
  asm_cap_pos : 1 ≤ s.assembly.capacity

/-- The same bundle with the two accounting rows allowed a surplus,
    describing the instant after a deposit has been logged but before the
    depositing line has claimed (or given up) its next unit: off is the
    surplus on the substructure row, offT on the turbine row.  InvA is the
    off = offT = 0 instance. -/
structure MidInv (cfg : Config) (s : SimState) (off offT : ℕ) : Prop where
  subs_len : s.subs.length = cfg.port.sub_assembly_lines
  turbs_len : s.turbs.length = cfg.port.turbine_assembly_cranes
  seq_lt : ∀ e ∈ s.queue, e.seq < s.nextSeq
  seq_nodup : (s.queue.map Event.seq).Nodup
  time_ge : ∀ e ∈ s.queue, s.now ≤ e.time
  wet_cap : s.wet.items.length ≤ s.wet.capacity
  asm_cap : s.assembly.items.length ≤ s.assembly.capacity
  conservation : s.subLog.length + s.toAssemble + subHolding s =
    cfg.num_turbines + off
  done_work : (∃ st ∈ s.subs, st = SubState.done) → s.toAssemble = 0
  wet_balance : s.getLog.length + s.wet.items.length = s.subLog.length
  asm_balance : s.turbLog.length + turbHolding s = s.getLog.length + offT
  asm_items_le : s.assembly.items.length ≤ s.turbLog.length
  wet_cap_pos : 1 ≤ s.wet.capacity
  asm_cap_pos : 1 ≤ s.assembly.capacity

/-- The state with the clock advanced to an event's time and that event
    removed from the queue (processEvent is resume applied to this). -/
def removeEvent (s : SimState) (e : Event) : SimState :=
  { s with now := e.time,
           queue := s.queue.filter (fun x => decide (x.seq ≠ e.seq)) }

/-- The temporal inductive invariant behind the first-turbine timing
    property: log timestamps are clock-bounded and head-minimal, the first
    wet-storage removal happens at the instant of the first deposit, every
    assembling turbine completes exactly its cadence after the removal it
    started from, and the queue/waiter bookkeeping (unique targets, waiters
    have no pending events, waiter queues match line states) that supports
    those facts. -/
structure InvB (cfg : Config) (s : SimState) : Prop where
  now_nonneg : 0 ≤ s.now
  seq_base : cfg.port.sub_assembly_lines + cfg.port.turbine_assembly_cranes ≤
    s.nextSeq
  sub_le_now : ∀ x ∈ s.subLog, x.2 ≤ s.now
  get_le_now : ∀ x ∈ s.getLog, x.2 ≤ s.now
  turb_le_now : ∀ x ∈ s.turbLog, x.2 ≤ s.now
  sub_head_min : ∀ h x, s.subLog.head? = some h → x ∈ s.subLog → h.2 ≤ x.2
  get_head_min : ∀ h x, s.getLog.head? = some h → x ∈ s.getLog → h.2 ≤ x.2
  turb_head_min : ∀ h x, s.turbLog.head? = some h → x ∈ s.turbLog → h.2 ≤ x.2
  get_head_eq : ∀ g, s.getLog.head? = some g →
    ∃ h, s.subLog.head? = some h ∧ g.2 = h.2
  first_put_now : s.turbs ≠ [] → s.subLog ≠ [] → s.getLog = [] →
    ∃ h, s.subLog.head? = some h ∧ h.2 = s.now
  start_event : s.subLog = [] → ∀ i, s.turbs[i]? = some TurbState.start →
    ∃ e, e ∈ s.queue ∧ e.target = Proc.turb (i + 1) ∧ e.time = 0 ∧
      e.seq < cfg.port.sub_assembly_lines + cfg.port.turbine_assembly_cranes
  producing_seq : s.subLog = [] → ∀ j f, s.subs[j]? = some SubState.producing →
    f ∈ s.queue → f.target = Proc.sub (j + 1) →
    cfg.port.sub_assembly_lines + cfg.port.turbine_assembly_cranes ≤ f.seq
  no_blocked_subs : s.subLog = [] → ∀ j : ℕ, s.subs[j]? ≠ some SubState.putBlocked
  blocked_in_waiters : s.subLog = [] → ∀ i,
    s.turbs[i]? = some TurbState.getBlocked →
    Proc.turb (i + 1) ∈ s.wet.get_waiters
  no_start : s.subLog ≠ [] → ∀ i : ℕ, s.turbs[i]? ≠ some TurbState.start
  woken : s.turbs ≠ [] → s.subLog ≠ [] → s.getLog = [] →
    ∃ i e, s.turbs[i]? = some TurbState.getBlocked ∧ e ∈ s.queue ∧
      e.target = Proc.turb (i + 1) ∧ e.time = s.now
  assembling_logged : ∀ (i : ℕ) (t0 : Time), (s.turbs[i]? = some (TurbState.assembling t0) ∨
    s.turbs[i]? = some (TurbState.putBlocked t0)) → (i + 1, t0) ∈ s.getLog
  assembling_time : ∀ (i : ℕ) (t0 : Time) (e : Event), s.turbs[i]? = some (TurbState.assembling t0) →
    e ∈ s.queue → e.target = Proc.turb (i + 1) → e.time = t0 + cfg.turbine_takt
  get_head_progress : ∀ g, s.getLog.head? = some g → s.turbLog ≠ [] ∨
    (s.turbs[g.1 - 1]? = some (TurbState.assembling g.2) ∧
      ∃ e, e ∈ s.queue ∧ e.target = Proc.turb g.1 ∧
        e.time = g.2 + cfg.turbine_takt)
  putBlocked_log : ∀ (i : ℕ) (t0 : Time), s.turbs[i]? = some (TurbState.putBlocked t0) →
    s.turbLog ≠ []
  turb_head_eq : ∀ x, s.turbLog.head? = some x →
    ∃ g, s.getLog.head? = some g ∧ x.2 = g.2 + cfg.turbine_takt
  wet_put_ok : ∀ p ∈ s.wet.put_waiters, ∃ i, p = Proc.sub i ∧ 1 ≤ i ∧
    s.subs[i - 1]? = some SubState.putBlocked
  wet_get_ok : ∀ p ∈ s.wet.get_waiters, ∃ i, p = Proc.turb i ∧ 1 ≤ i ∧
    s.turbs[i - 1]? = some TurbState.getBlocked
  asm_put_ok : ∀ p ∈ s.assembly.put_waiters, ∃ i t0, p = Proc.turb i ∧ 1 ≤ i ∧
    s.turbs[i - 1]? = some (TurbState.putBlocked t0)
  asm_get_nil : s.assembly.get_waiters = []
  waiter_no_event : ∀ p, (p ∈ s.wet.put_waiters ∨ p ∈ s.wet.get_waiters ∨
    p ∈ s.assembly.put_waiters) → ∀ e ∈ s.queue, e.target ≠ p
  target_unique : ∀ e1 e2, e1 ∈ s.queue → e2 ∈ s.queue →
    e1.target = e2.target → e1 = e2
  wet_put_nodup : s.wet.put_waiters.Nodup
  wet_get_nodup : s.wet.get_waiters.Nodup
  asm_put_nodup : s.assembly.put_waiters.Nodup
  valid : ∀ e ∈ s.queue,
    (∀ i, e.target = Proc.sub i → 1 ≤ i ∧ i ≤ s.subs.length) ∧
    (∀ i, e.target = Proc.turb i → 1 ≤ i ∧ i ≤ s.turbs.length)

/-- The temporal invariant at the instant just after the fired event aimed
    at turbine line i was removed and before line i resumes: identical to
    InvB except that the woken-retry witness is dropped, the initial-event
    clause exempts line i, and the head-progress witness may be the
    in-flight completion of line i itself. -/
structure InvBx (cfg : Config) (s : SimState) (i : ℕ) : Prop where
  now_nonneg : 0 ≤ s.now
  seq_base : cfg.port.sub_assembly_lines + cfg.port.turbine_assembly_cranes ≤
    s.nextSeq
  sub_le_now : ∀ x ∈ s.subLog, x.2 ≤ s.now
  get_le_now : ∀ x ∈ s.getLog, x.2 ≤ s.now
  turb_le_now : ∀ x ∈ s.turbLog, x.2 ≤ s.now
  sub_head_min : ∀ h x, s.subLog.head? = some h → x ∈ s.subLog → h.2 ≤ x.2
  get_head_min : ∀ h x, s.getLog.head? = some h → x ∈ s.getLog → h.2 ≤ x.2
  turb_head_min : ∀ h x, s.turbLog.head? = some h → x ∈ s.turbLog → h.2 ≤ x.2
  get_head_eq : ∀ g, s.getLog.head? = some g →
    ∃ h, s.subLog.head? = some h ∧ g.2 = h.2
  first_put_now : s.turbs ≠ [] → s.subLog ≠ [] → s.getLog = [] →
    ∃ h, s.subLog.head? = some h ∧ h.2 = s.now
  start_event : s.subLog = [] → ∀ k, k ≠ i - 1 →
    s.turbs[k]? = some TurbState.start →
    ∃ e, e ∈ s.queue ∧ e.target = Proc.turb (k + 1) ∧ e.time = 0 ∧
      e.seq < cfg.port.sub_assembly_lines + cfg.port.turbine_assembly_cranes
  producing_seq : s.subLog = [] → ∀ j f, s.subs[j]? = some SubState.producing →
    f ∈ s.queue → f.target = Proc.sub (j + 1) →
    cfg.port.sub_assembly_lines + cfg.port.turbine_assembly_cranes ≤ f.seq
  no_blocked_subs : s.subLog = [] → ∀ j : ℕ, s.subs[j]? ≠ some SubState.putBlocked
  blocked_in_waiters : s.subLog = [] → ∀ k,
    s.turbs[k]? = some TurbState.getBlocked →
    Proc.turb (k + 1) ∈ s.wet.get_waiters
  no_start : s.subLog ≠ [] → ∀ k : ℕ, s.turbs[k]? ≠ some TurbState.start
  assembling_logged : ∀ (k : ℕ) (t0 : Time), (s.turbs[k]? = some (TurbState.assembling t0) ∨
    s.turbs[k]? = some (TurbState.putBlocked t0)) → (k + 1, t0) ∈ s.getLog
  assembling_time : ∀ (k : ℕ) (t0 : Time) (e : Event), s.turbs[k]? = some (TurbState.assembling t0) →
    e ∈ s.queue → e.target = Proc.turb (k + 1) → e.time = t0 + cfg.turbine_takt
  get_head_progress : ∀ g, s.getLog.head? = some g → s.turbLog ≠ [] ∨
    (s.turbs[g.1 - 1]? = some (TurbState.assembling g.2) ∧ g.1 - 1 = i - 1) ∨
    (s.turbs[g.1 - 1]? = some (TurbState.assembling g.2) ∧
      ∃ e, e ∈ s.queue ∧ e.target = Proc.turb g.1 ∧
        e.time = g.2 + cfg.turbine_takt)
  putBlocked_log : ∀ (k : ℕ) (t0 : Time), s.turbs[k]? = some (TurbState.putBlocked t0) →
    s.turbLog ≠ []
  turb_head_eq : ∀ x, s.turbLog.head? = some x →
    ∃ g, s.getLog.head? = some g ∧ x.2 = g.2 + cfg.turbine_takt
  wet_put_ok : ∀ p ∈ s.wet.put_waiters, ∃ k, p = Proc.sub k ∧ 1 ≤ k ∧
    s.subs[k - 1]? = some SubState.putBlocked
  wet_get_ok : ∀ p ∈ s.wet.get_waiters, ∃ k, p = Proc.turb k ∧ 1 ≤ k ∧
    s.turbs[k - 1]? = some TurbState.getBlocked
  asm_put_ok : ∀ p ∈ s.assembly.put_waiters, ∃ k t0, p = Proc.turb k ∧ 1 ≤ k ∧
    s.turbs[k - 1]? = some (TurbState.putBlocked t0)
  asm_get_nil : s.assembly.get_waiters = []
  waiter_no_event : ∀ p, (p ∈ s.wet.put_waiters ∨ p ∈ s.wet.get_waiters ∨
    p ∈ s.assembly.put_waiters) → ∀ e ∈ s.queue, e.target ≠ p
  target_unique : ∀ e1 e2, e1 ∈ s.queue → e2 ∈ s.queue →
    e1.target = e2.target → e1 = e2
  wet_put_nodup : s.wet.put_waiters.Nodup
  wet_get_nodup : s.wet.get_waiters.Nodup
  asm_put_nodup : s.assembly.put_waiters.Nodup
  valid : ∀ e ∈ s.queue,
    (∀ k, e.target = Proc.sub k → 1 ≤ k ∧ k ≤ s.subs.length) ∧
    (∀ k, e.target = Proc.turb k → 1 ≤ k ∧ k ≤ s.turbs.length)

/-! ## Theorems -/

/-- C8: for every valid input, design_monopile and design_transition_piece
    each return a sizing record containing the keys diameter, thickness,
    weight, length and deck_space. -/
theorem claim_C8_sizing_record_keys (ops : FloatOps) (kw : MonopileKwargs)
    (mw sd rd hh rw D_p t_p : ℚ) :
    ["diameter", "thickness", "weight", "length", "deck_space"] ⊆
      (MonopileDesign.design_monopile ops kw mw sd rd hh rw).map Prod.fst ∧
    ["diameter", "thickness", "weight", "length", "deck_space"] ⊆
      (MonopileDesign.design_transition_piece kw D_p t_p).map Prod.fst := by
  constructor
  · have h : (MonopileDesign.design_monopile ops kw mw sd rd hh rw).map Prod.fst =
        ["diameter", "thickness", "moment", "embedment_length", "length",
         "weight", "deck_space", "type"] := rfl
    rw [h]; decide
  · have h : (MonopileDesign.design_transition_piece kw D_p t_p).map Prod.fst =
        ["type", "thickness", "diameter", "weight", "length", "deck_space"] := rfl
    rw [h]; decide

/-- C10: design_transition_piece returns diameter
    D_p + 2 * (t_c + t_tp) with t_c defaulting to 0 and t_tp defaulting to
    t_p, and deck_space equal to the square of that returned diameter. -/
theorem claim_C10_transition_piece_diameter (kw : MonopileKwargs) (D_p t_p : ℚ) :
    lookupKey (MonopileDesign.design_transition_piece kw D_p t_p) "diameter" =
      some (PyVal.num (D_p + 2 * (kw.monopile_tp_connection_thickness.getD 0 +
        kw.transition_piece_thickness.getD t_p))) ∧
    lookupKey (MonopileDesign.design_transition_piece kw D_p t_p) "deck_space" =
      some (PyVal.num ((D_p + 2 * (kw.monopile_tp_connection_thickness.getD 0 +
        kw.transition_piece_thickness.getD t_p)) ^ 2)) :=
  ⟨rfl, rfl⟩

/-- C9: before run() the outputs store is empty and both design_result and
    material_cost raise (the accessors are pure reads, so the object state
    is untouched by construction of the embedding); after run() the store
    holds exactly the keys monopile and transition_piece, in that order,
    and design_result returns it. -/
theorem claim_C9_design_result_guard :
    MonopileDesign.design_result MonopileDesign.newObj =
      Except.error "Has MonopileDesign been ran yet?" ∧
    (∀ cfg dmsc dtsc, MonopileDesign.material_cost cfg dmsc dtsc MonopileDesign.newObj =
      Except.error "Has MonopileDesign been ran yet?") ∧
    (∀ ops cfg, ((MonopileDesign.run ops cfg MonopileDesign.newObj)._outputs).map Prod.fst =
      ["monopile", "transition_piece"]) ∧
    (∀ ops cfg, MonopileDesign.design_result (MonopileDesign.run ops cfg MonopileDesign.newObj) =
      Except.ok (MonopileDesign.run ops cfg MonopileDesign.newObj)._outputs) := by
  refine ⟨rfl, fun cfg dmsc dtsc => rfl, fun ops cfg => rfl, fun ops cfg => rfl⟩

/-- Characterization of the register-and-start loop over substructure
    lines. -/
theorem foldl_addSubLine_eq (s : SimState) (n : ℕ) :
    (List.range n).foldl addSubLine s =
      { s with subs := s.subs ++ List.replicate n SubState.start,
               queue := s.queue ++ (List.range n).map
                 (fun j => ⟨s.now, s.nextSeq + j, Proc.sub (j + 1)⟩),
               nextSeq := s.nextSeq + n } := by
  induction n with
  | zero => simp
  | succ n ih =>
      rw [List.range_succ, List.foldl_append, ih]
      simp [addSubLine, schedule, List.range_succ, List.replicate_succ',
        List.append_assoc, Nat.add_assoc]

/-- Characterization of the register-and-start loop over turbine lines. -/
theorem foldl_addTurbLine_eq (s : SimState) (n : ℕ) :
    (List.range n).foldl addTurbLine s =
      { s with turbs := s.turbs ++ List.replicate n TurbState.start,
               queue := s.queue ++ (List.range n).map
                 (fun j => ⟨s.now, s.nextSeq + j, Proc.turb (j + 1)⟩),
               nextSeq := s.nextSeq + n } := by
  induction n with
  | zero => simp
  | succ n ih =>
      rw [List.range_succ, List.foldl_append, ih]
      simp [addTurbLine, schedule, List.range_succ, List.replicate_succ',
        List.append_assoc, Nat.add_assoc]

/-- setup_simulation succeeds exactly into setupState when neither cadence
    is negative and neither storage capacity resolves to zero. -/
theorem setup_simulation_eq (cfg : Config) (h1 : 0 ≤ cfg.takt_time)
    (h2 : 0 ≤ cfg.turbine_takt) (h3 : cfg.port.sub_storage.getD 2 ≠ 0)
    (h4 : cfg.port.assembly_storage.getD 2 ≠ 0) :
    MooredSubInstallation.setup_simulation cfg = Except.ok (setupState cfg) := by
  simp only [MooredSubInstallation.setup_simulation,
    MooredSubInstallation.initialize_substructure_production,
    MooredSubInstallation.initialize_turbine_assembly, WetStorage.init,
    if_neg (not_lt.mpr h1), if_neg h3, if_neg (not_lt.mpr h2), if_neg h4,
    foldl_addSubLine_eq, foldl_addTurbLine_eq]
  simp [setupState, initialState]

/-- C4: zero-capacity storage is rejected at construction, fatally and
    without clamping: WetStorage.init 0 is a configuration error, any
    positive capacity is kept exactly, and a configuration resolving either
    storage capacity to zero makes setup_simulation fail instead of
    reaching a runnable state. -/
theorem claim_C4_zero_capacity_rejected :
    (WetStorage.init 0 =
      Except.error "ConfigurationError: storage capacity must be positive") ∧
    (∀ c : ℕ, 1 ≤ c → WetStorage.init c = Except.ok ⟨c, [], [], []⟩) ∧
    (∀ cfg : Config, cfg.port.sub_storage = some 0 →
      ∃ m, MooredSubInstallation.setup_simulation cfg = Except.error m) ∧
    (∀ cfg : Config, cfg.port.assembly_storage = some 0 →
      ∃ m, MooredSubInstallation.setup_simulation cfg = Except.error m) := by
  refine ⟨rfl, ?_, ?_, ?_⟩
  · intro c hc
    unfold WetStorage.init
    rw [if_neg (by omega)]
  · intro cfg h
    unfold MooredSubInstallation.setup_simulation
      MooredSubInstallation.initialize_substructure_production
    by_cases ht : cfg.takt_time < 0
    · rw [if_pos ht]; exact ⟨_, rfl⟩
    · rw [if_neg ht]
      have hz : cfg.port.sub_storage.getD 2 = 0 := by rw [h]; rfl
      simp only [hz, WetStorage.init, if_pos]
      exact ⟨_, rfl⟩
  · intro cfg h
    unfold MooredSubInstallation.setup_simulation
      MooredSubInstallation.initialize_substructure_production
      MooredSubInstallation.initialize_turbine_assembly
    by_cases ht : cfg.takt_time < 0
    · rw [if_pos ht]; exact ⟨_, rfl⟩
    · rw [if_neg ht]
      by_cases hw : cfg.port.sub_storage.getD 2 = 0
      · simp only [WetStorage.init, hw, if_pos]
        exact ⟨_, rfl⟩
      · simp only [WetStorage.init, if_neg hw]
        by_cases ht2 : cfg.turbine_takt < 0
        · rw [if_pos ht2]; exact ⟨_, rfl⟩
        · rw [if_neg ht2]
          have ha : cfg.port.assembly_storage.getD 2 = 0 := by rw [h]; rfl
          simp only [ha, if_pos]
          exact ⟨_, rfl⟩

/-- Witness for C4 at concrete inputs. -/
theorem claim_C4_witness :
    WetStorage.init 5 = Except.ok ⟨5, [], [], []⟩ ∧
    (∃ m, MooredSubInstallation.setup_simulation cfgZero = Except.error m) ∧
    (∃ m, MooredSubInstallation.setup_simulation cfgZeroAsm = Except.error m) :=
  ⟨claim_C4_zero_capacity_rejected.2.1 5 (by decide),
   claim_C4_zero_capacity_rejected.2.2.1 cfgZero rfl,
   claim_C4_zero_capacity_rejected.2.2.2 cfgZeroAsm rfl⟩

/-- C6: with both storage-capacity keys absent, the wet storage and the
    assembly storage are both built with the default capacity 2. -/
theorem claim_C6_default_capacity (cfg : Config) (h1 : cfg.port.sub_storage = none)
    (h2 : cfg.port.assembly_storage = none) (h3 : 0 ≤ cfg.takt_time)
    (h4 : 0 ≤ cfg.turbine_takt) :
    ∃ s0, MooredSubInstallation.setup_simulation cfg = Except.ok s0 ∧
      s0.wet.capacity = 2 ∧ s0.assembly.capacity = 2 := by
  refine ⟨setupState cfg, setup_simulation_eq cfg h3 h4 ?_ ?_, ?_, ?_⟩ <;>
    simp [h1, h2, setupState]

/-- Witness for C6 at a concrete configuration. -/
theorem claim_C6_witness :
    ∃ s0, MooredSubInstallation.setup_simulation cfgA = Except.ok s0 ∧
      s0.wet.capacity = 2 ∧ s0.assembly.capacity = 2 :=
  claim_C6_default_capacity cfgA rfl rfl (by decide) (by decide)

/-- C5: setup creates exactly sub_assembly_lines substructure processes
    and one turbine process per crane; every created process is registered
    (appears in the registry, all in the start state) and then started (an
    initial resumption event for it is queued, in registration order).  In
    the model both kinds structurally share the single wet storage and the
    turbine lines the single assembly storage. -/
theorem claim_C5_process_creation (cfg : Config) (h1 : 0 ≤ cfg.takt_time)
    (h2 : 0 ≤ cfg.turbine_takt) (h3 : cfg.port.sub_storage.getD 2 ≠ 0)
    (h4 : cfg.port.assembly_storage.getD 2 ≠ 0) :
    ∃ s0, MooredSubInstallation.setup_simulation cfg = Except.ok s0 ∧
      s0.subs.length = cfg.port.sub_assembly_lines ∧
      s0.turbs.length = cfg.port.turbine_assembly_cranes ∧
      (∀ st ∈ s0.subs, st = SubState.start) ∧
      (∀ st ∈ s0.turbs, st = TurbState.start) ∧
      s0.queue.map Event.target =
        (List.range cfg.port.sub_assembly_lines).map (fun j => Proc.sub (j + 1)) ++
        (List.range cfg.port.turbine_assembly_cranes).map (fun j => Proc.turb (j + 1)) := by
  refine ⟨setupState cfg, setup_simulation_eq cfg h1 h2 h3 h4, ?_, ?_, ?_, ?_, ?_⟩
  · simp [setupState]
  · simp [setupState]
  · intro st hst
    exact List.eq_of_mem_replicate hst
  · intro st hst
    exact List.eq_of_mem_replicate hst
  · simp [setupState, Function.comp_def]

/-- Witness for C5 at a concrete configuration. -/
theorem claim_C5_witness :
    ∃ s0, MooredSubInstallation.setup_simulation cfgA = Except.ok s0 ∧
      s0.subs.length = cfgA.port.sub_assembly_lines ∧
      s0.turbs.length = cfgA.port.turbine_assembly_cranes ∧
      (∀ st ∈ s0.subs, st = SubState.start) ∧
      (∀ st ∈ s0.turbs, st = TurbState.start) ∧
      s0.queue.map Event.target =
        (List.range cfgA.port.sub_assembly_lines).map (fun j => Proc.sub (j + 1)) ++
        (List.range cfgA.port.turbine_assembly_cranes).map (fun j => Proc.turb (j + 1)) :=
  claim_C5_process_creation cfgA (by decide) (by decide) (by decide) (by decide)

/-- The (time, seq) order, in propositional form. -/
theorem Event.before_iff (a b : Event) : Event.before a b = true ↔
    a.time < b.time ∨ (a.time = b.time ∧ a.seq ≤ b.seq) := by
  unfold Event.before
  split_ifs with h1 h2
  · simp [h1]
  · simp only [Bool.false_eq_true, false_iff]
    rintro (h | ⟨heq, _⟩)
    · exact h1 h
    · exact absurd (heq ▸ h2) (lt_irrefl _)
  · have heq : a.time = b.time := le_antisymm (not_lt.mp h2) (not_lt.mp h1)
    simp [heq, decide_eq_true_iff]

/-- The order is reflexive. -/
theorem Event.before_refl (e : Event) : Event.before e e = true := by
  simp [Event.before_iff]

/-- The order is total. -/
theorem Event.before_total (a b : Event) :
    Event.before a b = true ∨ Event.before b a = true := by
  rw [Event.before_iff, Event.before_iff]
  rcases lt_trichotomy a.time b.time with h | h | h
  · exact Or.inl (Or.inl h)
  · rcases Nat.le_total a.seq b.seq with hs | hs
    · exact Or.inl (Or.inr ⟨h, hs⟩)
    · exact Or.inr (Or.inr ⟨h.symm, hs⟩)
  · exact Or.inr (Or.inl h)

/-- The order is transitive. -/
theorem Event.before_trans {a b c : Event} (h1 : Event.before a b = true)
    (h2 : Event.before b c = true) : Event.before a c = true := by
  rw [Event.before_iff] at h1 h2 ⊢
  rcases h1 with h1 | ⟨h1, h1s⟩ <;> rcases h2 with h2 | ⟨h2, h2s⟩
  · exact Or.inl (lt_trans h1 h2)
  · exact Or.inl (h2 ▸ h1)
  · exact Or.inl (h1 ▸ h2)
  · exact Or.inr ⟨h1.trans h2, le_trans h1s h2s⟩

/-- An earlier event does not have a later time. -/
theorem Event.before_le_time {a b : Event} (h : Event.before a b = true) :
    a.time ≤ b.time := by
  rw [Event.before_iff] at h
  rcases h with h | ⟨h, _⟩
  · exact le_of_lt h
  · exact le_of_eq h

/-- Mutually earlier events agree on time and sequence number. -/
theorem Event.before_antisymm {a b : Event} (h1 : Event.before a b = true)
    (h2 : Event.before b a = true) : a.time = b.time ∧ a.seq = b.seq := by
  rw [Event.before_iff] at h1 h2
  rcases h1 with h1 | ⟨h1, h1s⟩ <;> rcases h2 with h2 | ⟨h2, h2s⟩
  · exact absurd h1 (asymm h2)
  · exact absurd h1 (h2 ▸ lt_irrefl _)
  · exact absurd h2 (h1 ▸ lt_irrefl _)
  · exact ⟨h1, le_antisymm h1s h2s⟩

/-- pickNext returns none exactly on the empty queue. -/
theorem pickNext_eq_none {q : List Event} : pickNext q = none ↔ q = [] := by
  cases q with
  | nil => simp [pickNext]
  | cons a as =>
      simp only [pickNext]
      cases pickNext as with
      | none => simp
      | some m => by_cases h : Event.before a m = true <;> simp [h]

/-- pickNext returns an element of the queue. -/
theorem pickNext_mem : ∀ {q : List Event} {e : Event}, pickNext q = some e → e ∈ q := by
  intro q
  induction q with
  | nil => intro e h; simp [pickNext] at h
  | cons a as ih =>
      intro e h
      simp only [pickNext] at h
      cases hm : pickNext as with
      | none =>
          rw [hm] at h
          cases h
          exact List.mem_cons_self a as
      | some m =>
          simp only [hm] at h
          by_cases hb : Event.before a m = true
          · rw [if_pos hb] at h
            cases h
            exact List.mem_cons_self a as
          · rw [if_neg hb] at h
            cases h
            exact List.mem_cons_of_mem a (ih hm)

/-- pickNext returns an earliest element under the (time, seq) order. -/
theorem pickNext_min : ∀ {q : List Event} {e : Event}, pickNext q = some e →
    ∀ x ∈ q, Event.before e x = true := by
  intro q
  induction q with
  | nil => intro e h; simp [pickNext] at h
  | cons a as ih =>
      intro e h x hx
      simp only [pickNext] at h
      cases hm : pickNext as with
      | none =>
          rw [hm] at h
          cases h
          have : as = [] := pickNext_eq_none.mp hm
          subst this
          rcases List.mem_singleton.mp hx with rfl
          exact Event.before_refl x
      | some m =>
          simp only [hm] at h
          by_cases hb : Event.before a m = true
          · rw [if_pos hb] at h
            cases h
            rcases List.mem_cons.mp hx with rfl | hx'
            · exact Event.before_refl x
            · exact Event.before_trans hb (ih hm x hx')
          · rw [if_neg hb] at h
            cases h
            rcases List.mem_cons.mp hx with rfl | hx'
            · rcases Event.before_total e x with hh | hh
              · exact hh
              · exact absurd hh hb
            · exact ih hm x hx'

/-- Appending a fresh-sequence event keeps all sequence numbers below the
    bumped counter. -/
theorem seq_lt_append {q : List Event} {n : ℕ} {t : Time} {p : Proc}
    (h : ∀ x ∈ q, x.seq < n) :
    ∀ x ∈ q ++ [Event.mk t n p], x.seq < n + 1 := by
  intro x hx
  rcases List.mem_append.mp hx with hx | hx
  · exact Nat.lt_succ_of_lt (h x hx)
  · rcases List.mem_singleton.mp hx with rfl
    exact Nat.lt_succ_self n

/-- Appending a fresh-sequence event keeps the sequence numbers distinct. -/
theorem seq_nodup_append {q : List Event} {n : ℕ} {t : Time} {p : Proc}
    (h : ∀ x ∈ q, x.seq < n) (hn : (q.map Event.seq).Nodup) :
    ((q ++ [Event.mk t n p]).map Event.seq).Nodup := by
  rw [List.map_append, List.nodup_append]
  refine ⟨hn, List.nodup_singleton n, ?_⟩
  intro a ha hb
  rcases List.mem_map.mp ha with ⟨x, hx, rfl⟩
  have hxn : x.seq = n := by simpa using hb
  exact absurd hxn (Nat.ne_of_lt (h x hx))

/-- Appending an event at or after the clock keeps every queued time at or
    after the clock. -/
theorem time_ge_append {q : List Event} {now t : Time} {p : Proc} {n : ℕ}
    (h : ∀ x ∈ q, now ≤ x.time) (ht : now ≤ t) :
    ∀ x ∈ q ++ [Event.mk t n p], now ≤ x.time := by
  intro x hx
  rcases List.mem_append.mp hx with hx | hx
  · exact h x hx
  · rcases List.mem_singleton.mp hx with rfl
    exact ht

/-- Exchange rule for countP across a point update. -/
theorem countP_set_get {α : Type} (p : α → Bool) :
    ∀ (l : List α) (i : ℕ) (a b : α), l[i]? = some a →
      (l.set i b).countP p + (if p a then 1 else 0) =
        l.countP p + (if p b then 1 else 0) := by
  intro l
  induction l with
  | nil => intro i a b h; simp at h
  | cons x xs ih =>
      intro i a b h
      cases i with
      | zero =>
          simp only [List.getElem?_cons_zero, Option.some.injEq] at h
          subst h
          simp only [List.set_cons_zero, List.countP_cons]
          omega
      | succ j =>
          simp only [List.getElem?_cons_succ] at h
          simp only [List.set_cons_succ, List.countP_cons]
          have := ih j a b h
          omega

/-- Surviving a removal: any queue member other than the removed event is
    kept by the sequence-number filter, provided sequences are distinct. -/
theorem mem_filter_of_ne {q : List Event} {x e : Event}
    (hn : (q.map Event.seq).Nodup) (hx : x ∈ q) (he : e ∈ q) (hne : x ≠ e) :
    x ∈ q.filter (fun y => decide (y.seq ≠ e.seq)) := by
  rw [List.mem_filter]
  refine ⟨hx, ?_⟩
  simp only [decide_eq_true_iff]
  intro hseq
  exact hne (List.inj_on_of_nodup_map hn hx he hseq)

/-- Effect of subClaimWork on an exhausted work list. -/
theorem subClaimWork_zero {cfg : Config} {b : SimState} {i : ℕ}
    (h : b.toAssemble = 0) :
    subClaimWork cfg i b = { b with subs := b.subs.set (i - 1) SubState.done } := by
  unfold subClaimWork
  rw [h]

/-- Effect of subClaimWork on a nonempty work list. -/
theorem subClaimWork_succ {cfg : Config} {b : SimState} {i n : ℕ}
    (h : b.toAssemble = n + 1) :
    subClaimWork cfg i b = schedule (b.now + cfg.takt_time) (Proc.sub i)
      { b with toAssemble := n, subs := b.subs.set (i - 1) SubState.producing } := by
  unfold subClaimWork
  rw [h]

/-- Waking on an empty waiter queue is a no-op. -/
theorem wakeWetGetter_nil {b : SimState} (h : b.wet.get_waiters = []) :
    wakeWetGetter b = b := by
  unfold wakeWetGetter
  rw [h]

/-- Waking the earliest wet-storage get waiter. -/
theorem wakeWetGetter_cons {b : SimState} {g : Proc} {rest : List Proc}
    (h : b.wet.get_waiters = g :: rest) :
    wakeWetGetter b =
      schedule b.now g { b with wet := { b.wet with get_waiters := rest } } := by
  unfold wakeWetGetter
  rw [h]

/-- Waking on an empty waiter queue is a no-op. -/
theorem wakeWetPutter_nil {b : SimState} (h : b.wet.put_waiters = []) :
    wakeWetPutter b = b := by
  unfold wakeWetPutter
  rw [h]

/-- Waking the earliest wet-storage put waiter. -/
theorem wakeWetPutter_cons {b : SimState} {g : Proc} {rest : List Proc}
    (h : b.wet.put_waiters = g :: rest) :
    wakeWetPutter b =
      schedule b.now g { b with wet := { b.wet with put_waiters := rest } } := by
  unfold wakeWetPutter
  rw [h]

/-- Waking on an empty waiter queue is a no-op. -/
theorem wakeAsmGetter_nil {b : SimState} (h : b.assembly.get_waiters = []) :
    wakeAsmGetter b = b := by
  unfold wakeAsmGetter
  rw [h]

/-- Waking the earliest assembly-storage get waiter. -/
theorem wakeAsmGetter_cons {b : SimState} {g : Proc} {rest : List Proc}
    (h : b.assembly.get_waiters = g :: rest) :
    wakeAsmGetter b =
      schedule b.now g { b with assembly := { b.assembly with get_waiters := rest } } := by
  unfold wakeAsmGetter
  rw [h]

/-- holding evaluates to false on start. -/
@[simp] theorem SubState.sub_holding_start : SubState.holding SubState.start = false := rfl

/-- holding evaluates to true on producing. -/
@[simp] theorem SubState.holding_producing :
    SubState.holding SubState.producing = true := rfl

/-- holding evaluates to true on putBlocked. -/
@[simp] theorem SubState.sub_holding_putBlocked :
    SubState.holding SubState.putBlocked = true := rfl

/-- holding evaluates to false on done. -/
@[simp] theorem SubState.holding_done : SubState.holding SubState.done = false := rfl

/-- holding evaluates to false on start. -/
@[simp] theorem TurbState.turb_holding_start : TurbState.holding TurbState.start = false := rfl

/-- holding evaluates to false on getBlocked. -/
@[simp] theorem TurbState.holding_getBlocked :
    TurbState.holding TurbState.getBlocked = false := rfl

/-- holding evaluates to true on assembling. -/
@[simp] theorem TurbState.holding_assembling (t0 : Time) :
    TurbState.holding (TurbState.assembling t0) = true := rfl

/-- holding evaluates to true on putBlocked. -/
@[simp] theorem TurbState.turb_holding_putBlocked (t0 : Time) :
    TurbState.holding (TurbState.putBlocked t0) = true := rfl

/-- InvA is the zero-surplus instance of MidInv. -/
theorem InvA.toMid {cfg : Config} {s : SimState} (hA : InvA cfg s) :
    MidInv cfg s 0 0 :=
  ⟨hA.subs_len, hA.turbs_len, hA.seq_lt, hA.seq_nodup, hA.time_ge, hA.wet_cap,
   hA.asm_cap, by have := hA.conservation; omega, hA.done_work, hA.wet_balance,
   by have := hA.asm_balance; omega, hA.asm_items_le, hA.wet_cap_pos,
   hA.asm_cap_pos⟩

/-- The zero-surplus instance of MidInv is InvA. -/
theorem MidInv.toInvA {cfg : Config} {s : SimState} (hM : MidInv cfg s 0 0) :
    InvA cfg s :=
  ⟨hM.subs_len, hM.turbs_len, hM.seq_lt, hM.seq_nodup, hM.time_ge, hM.wet_cap,
   hM.asm_cap, by have := hM.conservation; omega, hM.done_work, hM.wet_balance,
   by have := hM.asm_balance; omega, hM.asm_items_le, hM.wet_cap_pos,
   hM.asm_cap_pos⟩

/-- Claiming the next work unit discharges the substructure-row surplus
    and restores the basic invariant. -/
theorem midInv_subClaimWork {cfg : Config} {b : SimState} {i : ℕ} {st : SubState}
    {off : ℕ}
    (h0 : 0 ≤ cfg.takt_time) (hM : MidInv cfg b off 0)
    (hst : b.subs[i - 1]? = some st)
    (hoff : (if SubState.holding st = true then 1 else 0) = off) :
    InvA cfg (subClaimWork cfg i b) := by
  rcases hT : b.toAssemble with _ | n
  · rw [subClaimWork_zero hT]
    have hc := countP_set_get SubState.holding b.subs (i - 1) st SubState.done hst
    simp at hc
    refine ⟨?_, hM.turbs_len, hM.seq_lt, hM.seq_nodup, hM.time_ge, hM.wet_cap,
      hM.asm_cap, ?_, ?_, hM.wet_balance, ?_, hM.asm_items_le,
      hM.wet_cap_pos, hM.asm_cap_pos⟩
    · simpa using hM.subs_len
    · have hco := hM.conservation
      simp only [subHolding] at hco ⊢
      simp only [hT] at hco
      omega
    · intro _
      exact hT
    · have hab := hM.asm_balance
      simp only [turbHolding] at hab ⊢
      omega
  · rw [subClaimWork_succ hT]
    have hc := countP_set_get SubState.holding b.subs (i - 1) st SubState.producing hst
    simp at hc
    refine ⟨?_, hM.turbs_len, ?_, ?_, ?_, hM.wet_cap, hM.asm_cap, ?_, ?_,
      hM.wet_balance, ?_, hM.asm_items_le, hM.wet_cap_pos, hM.asm_cap_pos⟩
    · simpa [schedule] using hM.subs_len
    · exact seq_lt_append hM.seq_lt
    · exact seq_nodup_append hM.seq_lt hM.seq_nodup
    · exact time_ge_append hM.time_ge (le_add_of_nonneg_right h0)
    · have hco := hM.conservation
      simp only [subHolding, schedule] at hco ⊢
      simp only [hT] at hco
      omega
    · rintro ⟨st2, hmem, rfl⟩
      rcases List.mem_or_eq_of_mem_set hmem with hmem2 | heq
      · exact absurd (hM.done_work ⟨_, hmem2, rfl⟩) (by omega)
      · exact absurd heq (by simp)
    · have hab := hM.asm_balance
      simp only [turbHolding, schedule] at hab ⊢
      omega

/-- A substructure line depositing (or retrying a deposit) into wet
    storage preserves the basic invariant. -/
theorem invA_subAttemptPut {cfg : Config} {b : SimState} {i : ℕ} {st : SubState}
    {first : Bool}
    (h0 : 0 ≤ cfg.takt_time) (hA : InvA cfg b)
    (hst : b.subs[i - 1]? = some st) (hold : SubState.holding st = true) :
    InvA cfg (subAttemptPut cfg i first b) := by
  have hoff : (if SubState.holding st = true then 1 else 0) = 1 := by
    rw [hold]
    simp
  unfold subAttemptPut
  by_cases hcap : b.wet.items.length < b.wet.capacity
  · rw [if_pos hcap]
    dsimp only
    rcases hW : b.wet.get_waiters with _ | ⟨g, rest⟩
    · rw [wakeWetGetter_nil rfl]
      refine midInv_subClaimWork h0 ?_ (by simpa using hst) hoff
      refine ⟨hA.subs_len, hA.turbs_len, hA.seq_lt, hA.seq_nodup, hA.time_ge,
        ?_, hA.asm_cap, ?_, hA.done_work, ?_, ?_, hA.asm_items_le,
        hA.wet_cap_pos, hA.asm_cap_pos⟩
      · simpa using hcap
      · have hco := hA.conservation
        simp only [subHolding] at hco ⊢
        simp only [List.length_append, List.length_singleton]
        omega
      · have hwb := hA.wet_balance
        simp only [List.length_append, List.length_singleton]
        omega
      · have hab := hA.asm_balance
        simp only [turbHolding] at hab ⊢
        omega
    · rw [wakeWetGetter_cons rfl]
      refine midInv_subClaimWork h0 ?_ (by simpa [schedule] using hst) hoff
      refine ⟨?_, hA.turbs_len, ?_, ?_, ?_, ?_, hA.asm_cap, ?_, hA.done_work,
        ?_, ?_, hA.asm_items_le, hA.wet_cap_pos, hA.asm_cap_pos⟩
      · simpa [schedule] using hA.subs_len
      · exact seq_lt_append hA.seq_lt
      · exact seq_nodup_append hA.seq_lt hA.seq_nodup
      · exact time_ge_append hA.time_ge le_rfl
      · simpa [schedule] using hcap
      · have hco := hA.conservation
        simp only [subHolding, schedule] at hco ⊢
        simp only [List.length_append, List.length_singleton]
        omega
      · have hwb := hA.wet_balance
        simp only [schedule, List.length_append, List.length_singleton]
        omega
      · have hab := hA.asm_balance
        simp only [turbHolding, schedule] at hab ⊢
        omega
  · rw [if_neg hcap]
    dsimp only
    have hc := countP_set_get SubState.holding b.subs (i - 1) st SubState.putBlocked hst
    simp [hold] at hc
    refine ⟨?_, hA.turbs_len, hA.seq_lt, hA.seq_nodup, hA.time_ge, hA.wet_cap,
      hA.asm_cap, ?_, ?_, hA.wet_balance, ?_, hA.asm_items_le,
      hA.wet_cap_pos, hA.asm_cap_pos⟩
    · simpa using hA.subs_len
    · have hco := hA.conservation
      simp only [subHolding] at hco ⊢
      omega
    · rintro ⟨st2, hmem, rfl⟩
      rcases List.mem_or_eq_of_mem_set hmem with hmem2 | heq
      · exact hA.done_work ⟨_, hmem2, rfl⟩
      · exact absurd heq (by simp)
    · have hab := hA.asm_balance
      simp only [turbHolding] at hab ⊢
      omega

/-- A turbine line taking (or retrying a take) from wet storage discharges
    the turbine-row surplus and restores the basic invariant. -/
theorem midInv_turbAttemptGet {cfg : Config} {b : SimState} {i : ℕ}
    {st : TurbState} {offT : ℕ} {first : Bool}
    (h6 : 0 ≤ cfg.turbine_takt) (hM : MidInv cfg b 0 offT)
    (hst : b.turbs[i - 1]? = some st)
    (hoffT : (if TurbState.holding st = true then 1 else 0) = offT) :
    InvA cfg (turbAttemptGet cfg i first b) := by
  unfold turbAttemptGet
  rcases hI : b.wet.items with _ | ⟨x, rest⟩
  · dsimp only
    have hc := countP_set_get TurbState.holding b.turbs (i - 1) st
      TurbState.getBlocked hst
    simp at hc
    refine ⟨hM.subs_len, ?_, hM.seq_lt, hM.seq_nodup, hM.time_ge, ?_,
      hM.asm_cap, ?_, hM.done_work, ?_, ?_, hM.asm_items_le,
      hM.wet_cap_pos, hM.asm_cap_pos⟩
    · simpa using hM.turbs_len
    · simpa using hM.wet_cap
    · have hco := hM.conservation
      simp only [subHolding] at hco ⊢
      omega
    · exact hM.wet_balance
    · have hab := hM.asm_balance
      simp only [turbHolding] at hab ⊢
      omega
  · dsimp only
    have hc := countP_set_get TurbState.holding b.turbs (i - 1) st
      (TurbState.assembling b.now) hst
    simp at hc
    have hwb := hM.wet_balance
    rw [hI] at hwb
    simp only [List.length_cons] at hwb
    rcases hP : b.wet.put_waiters with _ | ⟨g, grest⟩
    · rw [wakeWetPutter_nil rfl]
      refine ⟨hM.subs_len, ?_, ?_, ?_, ?_, ?_, hM.asm_cap, ?_, hM.done_work,
        ?_, ?_, hM.asm_items_le, hM.wet_cap_pos, hM.asm_cap_pos⟩
      · simpa [schedule] using hM.turbs_len
      · exact seq_lt_append hM.seq_lt
      · exact seq_nodup_append hM.seq_lt hM.seq_nodup
      · exact time_ge_append hM.time_ge (le_add_of_nonneg_right h6)
      · have hwc := hM.wet_cap
        rw [hI] at hwc
        simp only [List.length_cons] at hwc
        simp only [schedule]
        omega
      · have hco := hM.conservation
        simp only [subHolding, schedule] at hco ⊢
        omega
      · simp only [schedule, List.length_append, List.length_singleton]
        omega
      · have hab := hM.asm_balance
        simp only [turbHolding, schedule] at hab ⊢
        simp only [List.length_append, List.length_singleton]
        omega
    · rw [wakeWetPutter_cons rfl]
      refine ⟨hM.subs_len, ?_, ?_, ?_, ?_, ?_, hM.asm_cap, ?_, hM.done_work,
        ?_, ?_, hM.asm_items_le, hM.wet_cap_pos, hM.asm_cap_pos⟩
      · simpa [schedule] using hM.turbs_len
      · exact seq_lt_append (seq_lt_append hM.seq_lt)
      · exact seq_nodup_append (seq_lt_append hM.seq_lt)
          (seq_nodup_append hM.seq_lt hM.seq_nodup)
      · refine time_ge_append ?_ (le_add_of_nonneg_right h6)
        exact time_ge_append hM.time_ge le_rfl
      · have hwc := hM.wet_cap
        rw [hI] at hwc
        simp only [List.length_cons] at hwc
        simp only [schedule]
        omega
      · have hco := hM.conservation
        simp only [subHolding, schedule] at hco ⊢
        omega
      · simp only [schedule, List.length_append, List.length_singleton]
        omega
      · have hab := hM.asm_balance
        simp only [turbHolding, schedule] at hab ⊢
        simp only [List.length_append, List.length_singleton]
        omega

/-- A turbine line depositing (or retrying a deposit) into assembly
    storage, then going for its next substructure, preserves the basic
    invariant. -/
theorem invA_turbAttemptPut {cfg : Config} {b : SimState} {i : ℕ}
    {st : TurbState} {t0 : Time} {first : Bool}
    (h6 : 0 ≤ cfg.turbine_takt) (hA : InvA cfg b)
    (hst : b.turbs[i - 1]? = some st) (hold : TurbState.holding st = true) :
    InvA cfg (turbAttemptPut cfg i t0 first b) := by
  have hoffT : (if TurbState.holding st = true then 1 else 0) = 1 := by
    rw [hold]
    simp
  unfold turbAttemptPut
  by_cases hcap : b.assembly.items.length < b.assembly.capacity
  · rw [if_pos hcap]
    dsimp only
    rcases hG : b.assembly.get_waiters with _ | ⟨g, grest⟩
    · rw [wakeAsmGetter_nil rfl]
      refine midInv_turbAttemptGet h6 ?_ (by simpa using hst) hoffT
      refine ⟨hA.subs_len, hA.turbs_len, hA.seq_lt, hA.seq_nodup, hA.time_ge,
        hA.wet_cap, ?_, ?_, hA.done_work, hA.wet_balance, ?_, ?_,
        hA.wet_cap_pos, hA.asm_cap_pos⟩
      · simpa using hcap
      · have hco := hA.conservation
        simp only [subHolding] at hco ⊢
        omega
      · have hab := hA.asm_balance
        simp only [turbHolding] at hab ⊢
        simp only [List.length_append, List.length_singleton]
        omega
      · have hle := hA.asm_items_le
        simp only [List.length_append, List.length_singleton]
        omega
    · rw [wakeAsmGetter_cons rfl]
      refine midInv_turbAttemptGet h6 ?_ (by simpa [schedule] using hst) hoffT
      refine ⟨?_, ?_, ?_, ?_, ?_, ?_, ?_, ?_, hA.done_work, ?_, ?_, ?_,
        hA.wet_cap_pos, hA.asm_cap_pos⟩
      · simpa [schedule] using hA.subs_len
      · simpa [schedule] using hA.turbs_len
      · exact seq_lt_append hA.seq_lt
      · exact seq_nodup_append hA.seq_lt hA.seq_nodup
      · exact time_ge_append hA.time_ge le_rfl
      · simpa [schedule] using hA.wet_cap
      · simpa [schedule] using hcap
      · have hco := hA.conservation
        simp only [subHolding, schedule] at hco ⊢
        omega
      · simpa [schedule] using hA.wet_balance
      · have hab := hA.asm_balance
        simp only [turbHolding, schedule] at hab ⊢
        simp only [List.length_append, List.length_singleton]
        omega
      · have hle := hA.asm_items_le
        simp only [schedule, List.length_append, List.length_singleton]
        omega
  · rw [if_neg hcap]
    dsimp only
    have hc := countP_set_get TurbState.holding b.turbs (i - 1) st
      (TurbState.putBlocked t0) hst
    simp [hold] at hc
    refine ⟨hA.subs_len, ?_, hA.seq_lt, hA.seq_nodup, hA.time_ge, hA.wet_cap,
      hA.asm_cap, ?_, hA.done_work, hA.wet_balance, ?_, hA.asm_items_le,
      hA.wet_cap_pos, hA.asm_cap_pos⟩
    · simpa using hA.turbs_len
    · have hco := hA.conservation
      simp only [subHolding] at hco ⊢
      omega
    · have hab := hA.asm_balance
      simp only [turbHolding] at hab ⊢
      omega

/-- Resuming any process preserves the basic invariant. -/
theorem invA_resume {cfg : Config} {b : SimState} (p : Proc)
    (h0 : 0 ≤ cfg.takt_time) (h6 : 0 ≤ cfg.turbine_takt) (hA : InvA cfg b) :
    InvA cfg (resume cfg p b) := by
  cases p with
  | sub i =>
      rcases hs : b.subs[i - 1]? with _ | st
      · simpa [resume, hs] using hA
      · cases st with
        | start =>
            have h1 : resume cfg (Proc.sub i) b = subClaimWork cfg i b := by
              simp [resume, hs]
            rw [h1]
            exact midInv_subClaimWork h0 hA.toMid hs (by simp)
        | producing =>
            have h1 : resume cfg (Proc.sub i) b = subAttemptPut cfg i true b := by
              simp [resume, hs]
            rw [h1]
            exact invA_subAttemptPut h0 hA hs (by simp)
        | putBlocked =>
            have h1 : resume cfg (Proc.sub i) b = subAttemptPut cfg i false b := by
              simp [resume, hs]
            rw [h1]
            exact invA_subAttemptPut h0 hA hs (by simp)
        | done => simpa [resume, hs] using hA
  | turb i =>
      rcases hs : b.turbs[i - 1]? with _ | st
      · simpa [resume, hs] using hA
      · cases st with
        | start =>
            have h1 : resume cfg (Proc.turb i) b = turbAttemptGet cfg i true b := by
              simp [resume, hs]
            rw [h1]
            exact midInv_turbAttemptGet h6 hA.toMid hs (by simp)
        | getBlocked =>
            have h1 : resume cfg (Proc.turb i) b = turbAttemptGet cfg i false b := by
              simp [resume, hs]
            rw [h1]
            exact midInv_turbAttemptGet h6 hA.toMid hs (by simp)
        | assembling t0 =>
            have h1 : resume cfg (Proc.turb i) b = turbAttemptPut cfg i t0 true b := by
              simp [resume, hs]
            rw [h1]
            exact invA_turbAttemptPut h6 hA hs (by simp)
        | putBlocked t0 =>
            have h1 : resume cfg (Proc.turb i) b = turbAttemptPut cfg i t0 false b := by
              simp [resume, hs]
            rw [h1]
            exact invA_turbAttemptPut h6 hA hs (by simp)

/-- Processing an earliest event preserves the basic invariant. -/
theorem invA_processEvent {cfg : Config} {s : SimState} {e : Event}
    (h0 : 0 ≤ cfg.takt_time) (h6 : 0 ≤ cfg.turbine_takt)
    (hA : InvA cfg s) (_he : e ∈ s.queue)
    (hmin : ∀ x ∈ s.queue, Event.before e x = true) :
    InvA cfg (processEvent cfg s e) := by
  unfold processEvent
  apply invA_resume _ h0 h6
  refine ⟨hA.subs_len, hA.turbs_len, ?_, ?_, ?_, hA.wet_cap, hA.asm_cap,
    hA.conservation, hA.done_work, hA.wet_balance, hA.asm_balance,
    hA.asm_items_le, hA.wet_cap_pos, hA.asm_cap_pos⟩
  · intro x hx
    exact hA.seq_lt x (List.mem_of_mem_filter hx)
  · exact List.Nodup.sublist ((List.filter_sublist _).map Event.seq) hA.seq_nodup
  · intro x hx
    exact Event.before_le_time (hmin x (List.mem_of_mem_filter hx))

/-- One scheduler step preserves the basic invariant. -/
theorem invA_step {cfg : Config} {s s' : SimState}
    (h0 : 0 ≤ cfg.takt_time) (h6 : 0 ≤ cfg.turbine_takt)
    (hA : InvA cfg s) (h : step cfg s = some s') : InvA cfg s' := by
  unfold step at h
  rcases hp : pickNext s.queue with _ | e
  · rw [hp] at h
    simp at h
  · rw [hp] at h
    simp only [Option.map_some', Option.some.injEq] at h
    rw [← h]
    exact invA_processEvent h0 h6 hA (pickNext_mem hp) (pickNext_min hp)

/-- Any number of scheduler steps preserves the basic invariant. -/
theorem invA_stepN {cfg : Config} (h0 : 0 ≤ cfg.takt_time)
    (h6 : 0 ≤ cfg.turbine_takt) :
    ∀ (n : ℕ) (s : SimState), InvA cfg s → InvA cfg (stepN cfg n s) := by
  intro n
  induction n with
  | zero => intro s hA; exact hA
  | succ n ih =>
      intro s hA
      simp only [stepN]
      rcases hst : step cfg s with _ | s'
      · exact hA
      · exact ih s' (invA_step h0 h6 hA hst)

/-- countP over a replicate. -/
theorem countP_replicate {α : Type} (p : α → Bool) (n : ℕ) (a : α) :
    (List.replicate n a).countP p = if p a then n else 0 := by
  induction n with
  | zero => simp
  | succ n ih =>
      rw [List.replicate_succ, List.countP_cons, ih]
      by_cases h : p a <;> simp [h]

/-- The state produced by setup satisfies the basic invariant. -/
theorem invA_setupState (cfg : Config)
    (h3 : cfg.port.sub_storage.getD 2 ≠ 0)
    (h4 : cfg.port.assembly_storage.getD 2 ≠ 0) :
    InvA cfg (setupState cfg) := by
  have hmap : ((setupState cfg).queue.map Event.seq) =
      List.range cfg.port.sub_assembly_lines ++
      (List.range cfg.port.turbine_assembly_cranes).map
        (fun j => cfg.port.sub_assembly_lines + j) := by
    simp [setupState, Function.comp_def]
  refine ⟨?_, ?_, ?_, ?_, ?_, ?_, ?_, ?_, ?_, ?_, ?_, ?_, ?_, ?_⟩
  · simp [setupState]
  · simp [setupState]
  · intro e he
    simp only [setupState, List.mem_append, List.mem_map, List.mem_range] at he
    rcases he with ⟨j, hj, rfl⟩ | ⟨j, hj, rfl⟩ <;> simp [setupState] <;> omega
  · rw [hmap, List.nodup_append]
    refine ⟨List.nodup_range _, List.Nodup.map ?_ (List.nodup_range _), ?_⟩
    · intro a b hab
      exact Nat.add_left_cancel hab
    · intro a ha hb
      rw [List.mem_range] at ha
      rcases List.mem_map.mp hb with ⟨k, hk, hka⟩
      have hka2 : cfg.port.sub_assembly_lines + k = a := hka
      omega
  · intro e he
    simp only [setupState, List.mem_append, List.mem_map, List.mem_range] at he
    rcases he with ⟨j, hj, rfl⟩ | ⟨j, hj, rfl⟩ <;> simp [setupState]
  · simp [setupState]
  · simp [setupState]
  · simp [setupState, subHolding, countP_replicate]
  · rintro ⟨st, hm, rfl⟩
    simp only [setupState] at hm
    have hse := List.eq_of_mem_replicate hm
    cases hse
  · simp [setupState]
  · simp [setupState, turbHolding, countP_replicate]
  · simp [setupState]
  · simp only [setupState]
    omega
  · simp only [setupState]
    omega

/-- A successful setup forces the validity conditions and pins down the
    produced state. -/
theorem setup_simulation_inv {cfg : Config} {s0 : SimState}
    (h : MooredSubInstallation.setup_simulation cfg = Except.ok s0) :
    0 ≤ cfg.takt_time ∧ 0 ≤ cfg.turbine_takt ∧
    cfg.port.sub_storage.getD 2 ≠ 0 ∧ cfg.port.assembly_storage.getD 2 ≠ 0 ∧
    s0 = setupState cfg := by
  by_cases h1 : cfg.takt_time < 0
  · exfalso
    unfold MooredSubInstallation.setup_simulation
      MooredSubInstallation.initialize_substructure_production at h
    rw [if_pos h1] at h
    simp at h
  by_cases h3 : cfg.port.sub_storage.getD 2 = 0
  · exfalso
    unfold MooredSubInstallation.setup_simulation
      MooredSubInstallation.initialize_substructure_production at h
    rw [if_neg h1] at h
    simp only [WetStorage.init, if_pos h3] at h
    simp at h
  by_cases h2 : cfg.turbine_takt < 0
  · exfalso
    unfold MooredSubInstallation.setup_simulation
      MooredSubInstallation.initialize_substructure_production
      MooredSubInstallation.initialize_turbine_assembly at h
    rw [if_neg h1] at h
    simp only [WetStorage.init, if_neg h3] at h
    rw [if_pos h2] at h
    simp at h
  by_cases h4 : cfg.port.assembly_storage.getD 2 = 0
  · exfalso
    unfold MooredSubInstallation.setup_simulation
      MooredSubInstallation.initialize_substructure_production
      MooredSubInstallation.initialize_turbine_assembly at h
    rw [if_neg h1] at h
    simp only [WetStorage.init, if_neg h3] at h
    rw [if_neg h2] at h
    simp only [if_pos h4] at h
    simp at h
  · have heq := setup_simulation_eq cfg (not_lt.mp h1) (not_lt.mp h2) h3 h4
    rw [heq] at h
    cases h
    exact ⟨not_lt.mp h1, not_lt.mp h2, h3, h4, rfl⟩

/-- subClaimWork never changes a storage capacity. -/
theorem caps_subClaimWork (cfg : Config) (i : ℕ) (b : SimState) :
    (subClaimWork cfg i b).wet.capacity = b.wet.capacity ∧
    (subClaimWork cfg i b).assembly.capacity = b.assembly.capacity := by
  rcases hT : b.toAssemble with _ | n
  · rw [subClaimWork_zero hT]
    exact ⟨rfl, rfl⟩
  · rw [subClaimWork_succ hT]
    exact ⟨rfl, rfl⟩

/-- subAttemptPut never changes a storage capacity. -/
theorem caps_subAttemptPut (cfg : Config) (i : ℕ) (first : Bool) (b : SimState) :
    (subAttemptPut cfg i first b).wet.capacity = b.wet.capacity ∧
    (subAttemptPut cfg i first b).assembly.capacity = b.assembly.capacity := by
  unfold subAttemptPut
  by_cases hcap : b.wet.items.length < b.wet.capacity
  · rw [if_pos hcap]
    dsimp only
    rcases hW : b.wet.get_waiters with _ | ⟨g, rest⟩
    · rw [wakeWetGetter_nil rfl]
      exact caps_subClaimWork cfg i _
    · rw [wakeWetGetter_cons rfl]
      exact caps_subClaimWork cfg i _
  · rw [if_neg hcap]
    exact ⟨rfl, rfl⟩

/-- turbAttemptGet never changes a storage capacity. -/
theorem caps_turbAttemptGet (cfg : Config) (i : ℕ) (first : Bool) (b : SimState) :
    (turbAttemptGet cfg i first b).wet.capacity = b.wet.capacity ∧
    (turbAttemptGet cfg i first b).assembly.capacity = b.assembly.capacity := by
  unfold turbAttemptGet
  rcases hI : b.wet.items with _ | ⟨x, rest⟩
  · exact ⟨rfl, rfl⟩
  · dsimp only
    rcases hP : b.wet.put_waiters with _ | ⟨g, grest⟩
    · rw [wakeWetPutter_nil rfl]
      exact ⟨rfl, rfl⟩
    · rw [wakeWetPutter_cons rfl]
      exact ⟨rfl, rfl⟩

/-- turbAttemptPut never changes a storage capacity. -/
theorem caps_turbAttemptPut (cfg : Config) (i : ℕ) (t0 : Time) (first : Bool)
    (b : SimState) :
    (turbAttemptPut cfg i t0 first b).wet.capacity = b.wet.capacity ∧
    (turbAttemptPut cfg i t0 first b).assembly.capacity = b.assembly.capacity := by
  unfold turbAttemptPut
  by_cases hcap : b.assembly.items.length < b.assembly.capacity
  · rw [if_pos hcap]
    dsimp only
    rcases hG : b.assembly.get_waiters with _ | ⟨g, grest⟩
    · rw [wakeAsmGetter_nil rfl]
      exact caps_turbAttemptGet cfg i true _
    · rw [wakeAsmGetter_cons rfl]
      exact caps_turbAttemptGet cfg i true _
  · rw [if_neg hcap]
    exact ⟨rfl, rfl⟩

/-- Resuming a process never changes a storage capacity. -/
theorem resume_capacity (cfg : Config) (p : Proc) (b : SimState) :
    (resume cfg p b).wet.capacity = b.wet.capacity ∧
    (resume cfg p b).assembly.capacity = b.assembly.capacity := by
  cases p with
  | sub i =>
      rcases hs : b.subs[i - 1]? with _ | st
      · simp [resume, hs]
      · cases st with
        | start =>
            have h1 : resume cfg (Proc.sub i) b = subClaimWork cfg i b := by
              simp [resume, hs]
            rw [h1]
            exact caps_subClaimWork cfg i b
        | producing =>
            have h1 : resume cfg (Proc.sub i) b = subAttemptPut cfg i true b := by
              simp [resume, hs]
            rw [h1]
            exact caps_subAttemptPut cfg i true b
        | putBlocked =>
            have h1 : resume cfg (Proc.sub i) b = subAttemptPut cfg i false b := by
              simp [resume, hs]
            rw [h1]
            exact caps_subAttemptPut cfg i false b
        | done => simp [resume, hs]
  | turb i =>
      rcases hs : b.turbs[i - 1]? with _ | st
      · simp [resume, hs]
      · cases st with
        | start =>
            have h1 : resume cfg (Proc.turb i) b = turbAttemptGet cfg i true b := by
              simp [resume, hs]
            rw [h1]
            exact caps_turbAttemptGet cfg i true b
        | getBlocked =>
            have h1 : resume cfg (Proc.turb i) b = turbAttemptGet cfg i false b := by
              simp [resume, hs]
            rw [h1]
            exact caps_turbAttemptGet cfg i false b
        | assembling t0 =>
            have h1 : resume cfg (Proc.turb i) b = turbAttemptPut cfg i t0 true b := by
              simp [resume, hs]
            rw [h1]
            exact caps_turbAttemptPut cfg i t0 true b
        | putBlocked t0 =>
            have h1 : resume cfg (Proc.turb i) b = turbAttemptPut cfg i t0 false b := by
              simp [resume, hs]
            rw [h1]
            exact caps_turbAttemptPut cfg i t0 false b

/-- One scheduler step never changes a storage capacity. -/
theorem step_capacity {cfg : Config} {s s' : SimState}
    (h : step cfg s = some s') :
    s'.wet.capacity = s.wet.capacity ∧
    s'.assembly.capacity = s.assembly.capacity := by
  unfold step at h
  rcases hp : pickNext s.queue with _ | e
  · rw [hp] at h
    simp at h
  · rw [hp] at h
    simp only [Option.map_some', Option.some.injEq] at h
    subst h
    exact resume_capacity cfg e.target _

/-- No run of the scheduler ever changes a storage capacity. -/
theorem stepN_capacity (cfg : Config) :
    ∀ (n : ℕ) (s : SimState),
      (stepN cfg n s).wet.capacity = s.wet.capacity ∧
      (stepN cfg n s).assembly.capacity = s.assembly.capacity := by
  intro n
  induction n with
  | zero => intro s; exact ⟨rfl, rfl⟩
  | succ n ih =>
      intro s
      simp only [stepN]
      rcases hst : step cfg s with _ | s'
      · exact ⟨rfl, rfl⟩
      · have h1 := ih s'
        have h2 := step_capacity hst
        exact ⟨h1.1.trans h2.1, h1.2.trans h2.2⟩

/-- C1: at every simulated instant of every run, each storage holds
    between 0 and its configured capacity items inclusive, and the
    capacity never changes (in particular never shrinks) during the
    run. -/
theorem claim_C1_storage_invariant (cfg : Config) (s0 s : SimState) (n : ℕ)
    (hsetup : MooredSubInstallation.setup_simulation cfg = Except.ok s0)
    (hs : s = stepN cfg n s0) :
    0 ≤ s.wet.items.length ∧ s.wet.items.length ≤ s.wet.capacity ∧
    s.wet.capacity = s0.wet.capacity ∧
    0 ≤ s.assembly.items.length ∧
    s.assembly.items.length ≤ s.assembly.capacity ∧
    s.assembly.capacity = s0.assembly.capacity := by
  rcases setup_simulation_inv hsetup with ⟨h1, h2, h3, h4, rfl⟩
  subst hs
  have hA := invA_stepN h1 h2 n _ (invA_setupState cfg h3 h4)
  have hc := stepN_capacity cfg n (setupState cfg)
  exact ⟨Nat.zero_le _, hA.wet_cap, hc.1, Nat.zero_le _, hA.asm_cap, hc.2⟩

/-- Witness for C1 on the cfgA scenario after its 7-event complete run. -/
theorem claim_C1_witness :
    0 ≤ (stepN cfgA 7 s0A).wet.items.length ∧
    (stepN cfgA 7 s0A).wet.items.length ≤ (stepN cfgA 7 s0A).wet.capacity ∧
    (stepN cfgA 7 s0A).wet.capacity = s0A.wet.capacity ∧
    0 ≤ (stepN cfgA 7 s0A).assembly.items.length ∧
    (stepN cfgA 7 s0A).assembly.items.length ≤ (stepN cfgA 7 s0A).assembly.capacity ∧
    (stepN cfgA 7 s0A).assembly.capacity = s0A.assembly.capacity :=
  claim_C1_storage_invariant cfgA s0A (stepN cfgA 7 s0A) 7 rfl rfl

/-- C3: in a run where every substructure line has completed, exactly
    num_turbines units were deposited into wet storage; and once wet
    storage has drained and no turbine line still holds a unit, exactly
    num_turbines units were taken from wet storage and deposited into
    assembly storage. -/
theorem claim_C3_conservation (cfg : Config) (s0 s : SimState) (n : ℕ)
    (hsetup : MooredSubInstallation.setup_simulation cfg = Except.ok s0)
    (hlines : 1 ≤ cfg.port.sub_assembly_lines)
    (hs : s = stepN cfg n s0)
    (hdone : ∀ st ∈ s.subs, st = SubState.done) :
    s.subLog.length = cfg.num_turbines ∧
    (s.wet.items = [] → (∀ st ∈ s.turbs, TurbState.holding st = false) →
      s.getLog.length = cfg.num_turbines ∧
      s.turbLog.length = cfg.num_turbines) := by
  rcases setup_simulation_inv hsetup with ⟨h1, h2, h3, h4, rfl⟩
  have hA := invA_stepN h1 h2 n _ (invA_setupState cfg h3 h4)
  rw [← hs] at hA
  have hlen := hA.subs_len
  have hne : s.subs ≠ [] := by
    intro h0
    rw [h0] at hlen
    simp at hlen
    omega
  obtain ⟨st0, hst0⟩ := List.exists_mem_of_ne_nil _ hne
  have hta : s.toAssemble = 0 := hA.done_work ⟨st0, hst0, hdone st0 hst0⟩
  have hhold : subHolding s = 0 := by
    unfold subHolding
    rw [List.countP_eq_zero]
    intro a ha
    rw [hdone a ha]
    simp
  have hcons := hA.conservation
  constructor
  · omega
  · intro hwempty hturb
    have hwb := hA.wet_balance
    rw [hwempty] at hwb
    simp only [List.length_nil, Nat.add_zero] at hwb
    have htb := hA.asm_balance
    have hth : turbHolding s = 0 := by
      unfold turbHolding
      rw [List.countP_eq_zero]
      intro a ha
      rw [hturb a ha]
      simp
    constructor <;> omega

/-- Witness for C3 on the cfgA scenario after its complete run. -/
theorem claim_C3_witness :
    (stepN cfgA 7 s0A).subLog.length = cfgA.num_turbines ∧
    ((stepN cfgA 7 s0A).wet.items = [] →
      (∀ st ∈ (stepN cfgA 7 s0A).turbs, TurbState.holding st = false) →
      (stepN cfgA 7 s0A).getLog.length = cfgA.num_turbines ∧
      (stepN cfgA 7 s0A).turbLog.length = cfgA.num_turbines) :=
  claim_C3_conservation cfgA s0A (stepN cfgA 7 s0A) 7 rfl (by decide) rfl
    (by
      have h : (stepN cfgA 7 s0A).subs = [SubState.done] := by
        simp only [s0A, cfgA, setupState]
        norm_num [stepN, step, pickNext, processEvent, resume, subClaimWork,
          subAttemptPut, turbAttemptGet, turbAttemptPut, wakeWetGetter,
          wakeWetPutter, wakeAsmGetter, schedule, Event.before]
      intro st hst
      rw [h] at hst
      simpa using hst)

/-- With distinct sequence numbers the earliest event is unique. -/
theorem isNext_unique {q : List Event} {e1 e2 : Event}
    (hn : (q.map Event.seq).Nodup) (h1 : IsNext q e1) (h2 : IsNext q e2) :
    e1 = e2 := by
  have hb1 := h1.2 e2 h2.1
  have hb2 := h2.2 e1 h1.1
  have hts := Event.before_antisymm hb1 hb2
  exact List.inj_on_of_nodup_map hn h1.1 h2.1 hts.2

/-- Under distinct sequence numbers, the scheduler relation computes the
    scheduler function: the engine is deterministic. -/
theorem stepRel_eq_step {cfg : Config} {s s' : SimState}
    (hn : (s.queue.map Event.seq).Nodup) (h : StepRel cfg s s') :
    step cfg s = some s' := by
  rcases h with ⟨e, hne, rfl⟩
  rcases hp : pickNext s.queue with _ | m
  · rw [pickNext_eq_none] at hp
    rw [hp] at hne
    exact absurd hne.1 (List.not_mem_nil e)
  · have hm : IsNext s.queue m := ⟨pickNext_mem hp, pickNext_min hp⟩
    have hme : m = e := isNext_unique hn hm hne
    unfold step
    rw [hp, hme]
    rfl

/-- n-step runs of the scheduler relation from an invariant state are
    unique. -/
theorem runRel_unique {cfg : Config} (h0 : 0 ≤ cfg.takt_time)
    (h6 : 0 ≤ cfg.turbine_takt) :
    ∀ {n : ℕ} {s t1 t2 : SimState}, InvA cfg s →
      RunRel cfg n s t1 → RunRel cfg n s t2 → t1 = t2 := by
  intro n
  induction n with
  | zero =>
      intro s t1 t2 _ h1 h2
      cases h1
      cases h2
      rfl
  | succ n ih =>
      intro s t1 t2 hA h1 h2
      cases h1 with
      | step hs1 hr1 =>
          cases h2 with
          | step hs2 hr2 =>
              have e1 := stepRel_eq_step hA.seq_nodup hs1
              have e2 := stepRel_eq_step hA.seq_nodup hs2
              rw [e1] at e2
              cases e2
              exact ih (invA_step h0 h6 hA e1) hr1 hr2

/-- C2: for a fixed configuration and registration order, any two runs of
    the same length under the scheduler relation (which may process any
    earliest event) reach the same state, so per-unit completion
    timestamps are identical: the run is a deterministic function of the
    configuration and registration order. -/
theorem claim_C2_determinism (cfg : Config) (s0 t1 t2 : SimState) (n : ℕ)
    (hsetup : MooredSubInstallation.setup_simulation cfg = Except.ok s0)
    (h1 : RunRel cfg n s0 t1) (h2 : RunRel cfg n s0 t2) :
    t1 = t2 ∧ t1.subLog = t2.subLog ∧ t1.turbLog = t2.turbLog := by
  rcases setup_simulation_inv hsetup with ⟨ht1, ht2, h3, h4, rfl⟩
  have heq := runRel_unique ht1 ht2 (invA_setupState cfg h3 h4) h1 h2
  exact ⟨heq, by rw [heq], by rw [heq]⟩

/-- Witness for C2: two one-step runs of the cfgA scenario. -/
theorem claim_C2_witness :
    processEvent cfgA s0A ⟨0, 0, Proc.sub 1⟩ =
      processEvent cfgA s0A ⟨0, 0, Proc.sub 1⟩ ∧
    (processEvent cfgA s0A ⟨0, 0, Proc.sub 1⟩).subLog =
      (processEvent cfgA s0A ⟨0, 0, Proc.sub 1⟩).subLog ∧
    (processEvent cfgA s0A ⟨0, 0, Proc.sub 1⟩).turbLog =
      (processEvent cfgA s0A ⟨0, 0, Proc.sub 1⟩).turbLog := by
  have hnext : IsNext s0A.queue ⟨0, 0, Proc.sub 1⟩ := by
    constructor
    · decide
    · decide
  have hrun : RunRel cfgA 1 s0A (processEvent cfgA s0A ⟨0, 0, Proc.sub 1⟩) :=
    RunRel.step ⟨⟨0, 0, Proc.sub 1⟩, hnext, rfl⟩ (RunRel.refl _)
  exact claim_C2_determinism cfgA s0A _ _ 1 rfl hrun hrun

/-- Reading a replicate forces the bound and the value. -/
theorem getElem?_replicate_some {α : Type} {n i : ℕ} {a b : α}
    (h : (List.replicate n a)[i]? = some b) : i < n ∧ b = a := by
  rw [List.getElem?_replicate] at h
  by_cases hi : i < n
  · rw [if_pos hi] at h
    cases h
    exact ⟨hi, rfl⟩
  · rw [if_neg hi] at h
    cases h

/-- Appending to a nonempty list keeps its head. -/
theorem head?_concat_ne {α : Type} {l : List α} (h : l ≠ []) (a : α) :
    (l ++ [a]).head? = l.head? := by
  cases l with
  | nil => exact absurd rfl h
  | cons x xs => rfl

/-- A member forces a head. -/
theorem head?_some_of_mem {α : Type} {l : List α} {x : α} (h : x ∈ l) :
    ∃ hd, l.head? = some hd := by
  cases l with
  | nil => exact absurd h (List.not_mem_nil x)
  | cons y ys => exact ⟨y, rfl⟩

/-- Target-unique queues stay target-unique under a fresh-target append. -/
theorem target_unique_append {q : List Event} {a : Event}
    (hq : ∀ e1 e2, e1 ∈ q → e2 ∈ q → e1.target = e2.target → e1 = e2)
    (ha : ∀ x ∈ q, x.target ≠ a.target) :
    ∀ e1 e2, e1 ∈ q ++ [a] → e2 ∈ q ++ [a] → e1.target = e2.target → e1 = e2 := by
  intro e1 e2 h1 h2 ht
  rcases List.mem_append.mp h1 with h1 | h1 <;>
    rcases List.mem_append.mp h2 with h2 | h2
  · exact hq e1 e2 h1 h2 ht
  · have he2 : e2 = a := List.mem_singleton.mp h2
    rw [he2] at ht
    exact absurd ht (ha e1 h1)
  · have he1 : e1 = a := List.mem_singleton.mp h1
    have ht2 : e2.target = a.target := by rw [← he1, ht]
    exact absurd ht2 (ha e2 h2)
  · rw [List.mem_singleton.mp h1, List.mem_singleton.mp h2]

/-- Every initial event of setupState is an initial resumption of one of
    the registered lines. -/
theorem setupState_queue_shape (cfg : Config) :
    ∀ e ∈ (setupState cfg).queue,
      (∃ j, j < cfg.port.sub_assembly_lines ∧
        e = ⟨0, j, Proc.sub (j + 1)⟩) ∨
      (∃ j, j < cfg.port.turbine_assembly_cranes ∧
        e = ⟨0, cfg.port.sub_assembly_lines + j, Proc.turb (j + 1)⟩) := by
  intro e he
  simp only [setupState, List.mem_append, List.mem_map, List.mem_range] at he
  rcases he with ⟨j, hj, rfl⟩ | ⟨j, hj, rfl⟩
  · exact Or.inl ⟨j, hj, rfl⟩
  · exact Or.inr ⟨j, hj, rfl⟩

/-- The state produced by setup satisfies the temporal invariant. -/
theorem invB_setupState (cfg : Config) : InvB cfg (setupState cfg) := by
  have hshape := setupState_queue_shape cfg
  refine ⟨?_, ?_, ?_, ?_, ?_, ?_, ?_, ?_, ?_, ?_, ?_, ?_, ?_, ?_, ?_, ?_, ?_,
    ?_, ?_, ?_, ?_, ?_, ?_, ?_, ?_, ?_, ?_, ?_, ?_, ?_, ?_⟩
  · simp [setupState]
  · simp [setupState]
  · intro x hx
    simp [setupState] at hx
  · intro x hx
    simp [setupState] at hx
  · intro x hx
    simp [setupState] at hx
  · intro h x hh
    simp [setupState] at hh
  · intro h x hh
    simp [setupState] at hh
  · intro h x hh
    simp [setupState] at hh
  · intro g hg
    simp [setupState] at hg
  · intro _ h2 _
    simp [setupState] at h2
  · intro _ i hi
    have hi2 := getElem?_replicate_some hi
    refine ⟨⟨0, cfg.port.sub_assembly_lines + i, Proc.turb (i + 1)⟩, ?_, rfl, rfl, ?_⟩
    · simp only [setupState, List.mem_append, List.mem_map, List.mem_range]
      exact Or.inr ⟨i, hi2.1, rfl⟩
    · have hlt : i < cfg.port.turbine_assembly_cranes := hi2.1
      show cfg.port.sub_assembly_lines + i <
        cfg.port.sub_assembly_lines + cfg.port.turbine_assembly_cranes
      omega
  · intro _ j f hj
    have := getElem?_replicate_some hj
    cases this.2
  · intro _ j hj
    have := getElem?_replicate_some hj
    cases this.2
  · intro _ i hi
    have := getElem?_replicate_some hi
    cases this.2
  · intro h
    simp [setupState] at h
  · intro _ h2 _
    simp [setupState] at h2
  · intro i t0 hd
    rcases hd with hd | hd <;> cases (getElem?_replicate_some hd).2
  · intro i t0 e hd
    have := getElem?_replicate_some hd
    cases this.2
  · intro g hg
    simp [setupState] at hg
  · intro i t0 hd
    have := getElem?_replicate_some hd
    cases this.2
  · intro x hx
    simp [setupState] at hx
  · intro p hp
    simp [setupState] at hp
  · intro p hp
    simp [setupState] at hp
  · intro p hp
    simp [setupState] at hp
  · simp [setupState]
  · intro p hp
    simp [setupState] at hp
  · intro e1 e2 h1 h2 ht
    rcases hshape e1 h1 with ⟨j, hj, rfl⟩ | ⟨j, hj, rfl⟩ <;>
      rcases hshape e2 h2 with ⟨k, hk, rfl⟩ | ⟨k, hk, rfl⟩ <;>
        simp only [Event.mk.injEq] at ht ⊢ <;> simp at ht ⊢ <;> omega
  · simp [setupState]
  · simp [setupState]
  · simp [setupState]
  · intro e he
    constructor
    · intro i hti
      rcases hshape e he with ⟨j, hj, rfl⟩ | ⟨j, hj, rfl⟩ <;> simp at hti
      · rcases hti with rfl
        simp only [setupState, List.length_replicate]
        omega
    · intro i hti
      rcases hshape e he with ⟨j, hj, rfl⟩ | ⟨j, hj, rfl⟩ <;> simp at hti
      · rcases hti with rfl
        simp only [setupState, List.length_replicate]
        omega

/-- A turbine line found holding a unit forces a prior wet-storage
    removal. -/
theorem getLog_ne_of_holding {cfg : Config} {s : SimState} (hA : InvA cfg s)
    {k : ℕ} {st : TurbState} (hk : s.turbs[k]? = some st)
    (hh : TurbState.holding st = true) : s.getLog ≠ [] := by
  have hmem : st ∈ s.turbs := List.getElem?_mem hk
  have hpos : 0 < turbHolding s := by
    unfold turbHolding
    rw [List.countP_pos_iff]
    exact ⟨st, hmem, hh⟩
  have hab := hA.asm_balance
  intro h0
  rw [h0] at hab
  simp at hab
  omega

/-- A nonempty removal log forces a nonempty deposit log. -/
theorem subLog_ne_of_getLog_ne {cfg : Config} {s : SimState} (hA : InvA cfg s)
    (h : s.getLog ≠ []) : s.subLog ≠ [] := by
  have hwb := hA.wet_balance
  intro h0
  rw [h0] at hwb
  simp at hwb
  exact h hwb.1

/-- A nonempty wet storage forces a nonempty deposit log. -/
theorem subLog_ne_of_items {cfg : Config} {s : SimState} (hA : InvA cfg s)
    (h : s.wet.items ≠ []) : s.subLog ≠ [] := by
  have hwb := hA.wet_balance
  intro h0
  rw [h0] at hwb
  simp at hwb
  exact h hwb.2

/-- While a deposit is pending removal, the clock sits at the first
    deposit instant, so any fireable event is at the current instant. -/
theorem regime_time_eq {cfg : Config} {s : SimState} {e : Event}
    (hA : InvA cfg s) (hB : InvB cfg s) (he : e ∈ s.queue)
    (hmin : ∀ x ∈ s.queue, Event.before e x = true)
    (hturbs : s.turbs ≠ []) (hsub : s.subLog ≠ []) (hget : s.getLog = []) :
    e.time = s.now := by
  obtain ⟨i, w, hst, hwq, hwt, hwtime⟩ := hB.woken hturbs hsub hget
  have h1 : e.time ≤ w.time := Event.before_le_time (hmin w hwq)
  rw [hwtime] at h1
  exact le_antisymm h1 (hA.time_ge e he)

/-- Before the first deposit, a producing line's pending deposit event can
    only be the earliest event when no turbine line is still in its start
    state: every turbine line is blocked on the empty wet storage. -/
theorem prefirstput_all_blocked {cfg : Config} {s : SimState} {e : Event}
    {i : ℕ}
    (hA : InvA cfg s) (hB : InvB cfg s) (he : e ∈ s.queue)
    (hmin : ∀ x ∈ s.queue, Event.before e x = true)
    (hsubL : s.subLog = []) (hst : s.subs[i - 1]? = some SubState.producing)
    (htgt : e.target = Proc.sub i) (hi1 : 1 ≤ i) :
    ∀ (k : ℕ) (st : TurbState), s.turbs[k]? = some st →
      st = TurbState.getBlocked := by
  intro k st hk
  cases st with
  | start =>
      exfalso
      obtain ⟨et, hetq, hett, hetime, hetseq⟩ := hB.start_event hsubL k hk
      have hps : cfg.port.sub_assembly_lines + cfg.port.turbine_assembly_cranes ≤
          e.seq := by
        refine hB.producing_seq hsubL (i - 1) e hst he ?_
        rw [htgt]
        congr 1
        omega
      have hbe := hmin et hetq
      rw [Event.before_iff] at hbe
      have h0e : (0 : Time) ≤ e.time := le_trans hB.now_nonneg (hA.time_ge e he)
      rcases hbe with hbe | ⟨hbt, hbs⟩
      · rw [hetime] at hbe
        exact absurd hbe (not_lt.mpr h0e)
      · omega
  | getBlocked => rfl
  | assembling t0 =>
      exfalso
      have hg := getLog_ne_of_holding hA hk (by simp)
      have hwb := hA.wet_balance
      rw [hsubL] at hwb
      simp at hwb
      exact hg hwb.1
  | putBlocked t0 =>
      exfalso
      have hg := getLog_ne_of_holding hA hk (by simp)
      have hwb := hA.wet_balance
      rw [hsubL] at hwb
      simp at hwb
      exact hg hwb.1

/-- Queue restriction of removeEvent. -/
theorem mem_of_mem_remove {s : SimState} {e x : Event}
    (hx : x ∈ (removeEvent s e).queue) : x ∈ s.queue :=
  List.mem_of_mem_filter hx

/-- An event aimed at another process survives the removal. -/
theorem mem_remove_of_target_ne {s : SimState} {e x : Event}
    (hn : (s.queue.map Event.seq).Nodup) (he : e ∈ s.queue)
    (hx : x ∈ s.queue) (ht : x.target ≠ e.target) :
    x ∈ (removeEvent s e).queue := by
  refine mem_filter_of_ne hn hx he ?_
  intro hxe
  rw [hxe] at ht
  exact ht rfl

/-- After the removal, no event aims at the fired process. -/
theorem remove_target_ne {cfg : Config} {s : SimState} {e : Event}
    (hB : InvB cfg s) (he : e ∈ s.queue) :
    ∀ x ∈ (removeEvent s e).queue, x.target ≠ e.target := by
  intro x hx ht
  have hxe : x = e := hB.target_unique x e (mem_of_mem_remove hx) he ht
  have hfil := (List.mem_filter.mp hx).2
  rw [hxe] at hfil
  simp at hfil

/-- Removing a fired event aimed at a substructure line preserves the
    temporal invariant. -/
theorem invB_remove_sub_target {cfg : Config} {s : SimState} {e : Event}
    {i0 : ℕ}
    (hA : InvA cfg s) (hB : InvB cfg s) (he : e ∈ s.queue)
    (hmin : ∀ x ∈ s.queue, Event.before e x = true)
    (htgt : e.target = Proc.sub i0) :
    InvB cfg (removeEvent s e) := by
  have hnow : s.now ≤ e.time := hA.time_ge e he
  have hkeep : ∀ x ∈ s.queue, x.target ≠ e.target →
      x ∈ (removeEvent s e).queue :=
    fun x hx ht => mem_remove_of_target_ne hA.seq_nodup he hx ht
  refine ⟨le_trans hB.now_nonneg hnow, hB.seq_base, ?_, ?_, ?_,
    hB.sub_head_min, hB.get_head_min, hB.turb_head_min, hB.get_head_eq,
    ?_, ?_, ?_, hB.no_blocked_subs, hB.blocked_in_waiters, hB.no_start, ?_,
    hB.assembling_logged, ?_, ?_, hB.putBlocked_log, hB.turb_head_eq,
    hB.wet_put_ok, hB.wet_get_ok, hB.asm_put_ok, hB.asm_get_nil, ?_, ?_,
    hB.wet_put_nodup, hB.wet_get_nodup, hB.asm_put_nodup, ?_⟩
  · exact fun x hx => le_trans (hB.sub_le_now x hx) hnow
  · exact fun x hx => le_trans (hB.get_le_now x hx) hnow
  · exact fun x hx => le_trans (hB.turb_le_now x hx) hnow
  · intro ht hs hg
    obtain ⟨h, hh, heq⟩ := hB.first_put_now ht hs hg
    refine ⟨h, hh, ?_⟩
    rw [heq]
    exact (regime_time_eq hA hB he hmin ht hs hg).symm
  · intro hsubL k hk
    obtain ⟨et, hetq, hett, hetime, hetseq⟩ := hB.start_event hsubL k hk
    refine ⟨et, hkeep et hetq ?_, hett, hetime, hetseq⟩
    rw [hett, htgt]
    simp
  · intro hsubL j f hj hf hft
    exact hB.producing_seq hsubL j f hj (mem_of_mem_remove hf) hft
  · intro ht hs hg
    obtain ⟨k, w, hst, hwq, hwt, hwtime⟩ := hB.woken ht hs hg
    refine ⟨k, w, hst, hkeep w hwq ?_, hwt, ?_⟩
    · rw [hwt, htgt]
      simp
    · rw [hwtime]
      exact (regime_time_eq hA hB he hmin ht hs hg).symm
  · intro k t0 f hk hf hft
    exact hB.assembling_time k t0 f hk (mem_of_mem_remove hf) hft
  · intro g hg
    rcases hB.get_head_progress g hg with hl | ⟨hstate, f, hfq, hft, hftime⟩
    · exact Or.inl hl
    · refine Or.inr ⟨hstate, f, hkeep f hfq ?_, hft, hftime⟩
      rw [hft, htgt]
      simp
  · intro p hp f hf
    exact hB.waiter_no_event p hp f (mem_of_mem_remove hf)
  · intro e1 e2 h1 h2 ht
    exact hB.target_unique e1 e2 (mem_of_mem_remove h1) (mem_of_mem_remove h2) ht
  · intro f hf
    exact hB.valid f (mem_of_mem_remove hf)

/-- Claiming the next work unit preserves the temporal invariant, provided
    no pending event aims at the claiming line. -/
theorem invB_subClaimWork {cfg : Config} {b : SimState} {i : ℕ} {st : SubState}
    (hBb : InvB cfg b)
    (hnoev : ∀ x ∈ b.queue, x.target ≠ Proc.sub i)
    (hst : b.subs[i - 1]? = some st)
    (hnotin : Proc.sub i ∉ b.wet.put_waiters) (hi1 : 1 ≤ i) :
    InvB cfg (subClaimWork cfg i b) := by
  have hilen : i - 1 < b.subs.length := by
    by_contra hcon
    rw [List.getElem?_eq_none (not_lt.mp hcon)] at hst
    cases hst
  rcases hT : b.toAssemble with _ | n
  · rw [subClaimWork_zero hT]
    refine ⟨hBb.now_nonneg, hBb.seq_base, hBb.sub_le_now, hBb.get_le_now,
      hBb.turb_le_now, hBb.sub_head_min, hBb.get_head_min, hBb.turb_head_min,
      hBb.get_head_eq, hBb.first_put_now, hBb.start_event, ?_, ?_,
      hBb.blocked_in_waiters, hBb.no_start, hBb.woken, hBb.assembling_logged,
      hBb.assembling_time, hBb.get_head_progress, hBb.putBlocked_log,
      hBb.turb_head_eq, ?_, hBb.wet_get_ok, hBb.asm_put_ok, hBb.asm_get_nil,
      hBb.waiter_no_event, hBb.target_unique, hBb.wet_put_nodup,
      hBb.wet_get_nodup, hBb.asm_put_nodup, ?_⟩
    · intro hsubL j f hj hf hft
      by_cases hji : j = i - 1
      · subst hji
        rw [List.getElem?_set_self hilen] at hj
        cases hj
      · rw [List.getElem?_set_ne (fun hcon => hji hcon.symm)] at hj
        exact hBb.producing_seq hsubL j f hj hf hft
    · intro hsubL j
      by_cases hji : j = i - 1
      · subst hji
        rw [List.getElem?_set_self hilen]
        intro hcon
        cases hcon
      · rw [List.getElem?_set_ne (fun hcon => hji hcon.symm)]
        exact hBb.no_blocked_subs hsubL j
    · intro p hp
      obtain ⟨k, hpk, hk1, hkst⟩ := hBb.wet_put_ok p hp
      refine ⟨k, hpk, hk1, ?_⟩
      have hne : k - 1 ≠ i - 1 := by
        intro hcon
        have hki : k = i := by omega
        rw [hki] at hpk
        rw [hpk] at hp
        exact hnotin hp
      rw [List.getElem?_set_ne (fun hcon => hne hcon.symm)]
      exact hkst
    · intro f hf
      have hv := hBb.valid f hf
      refine ⟨?_, hv.2⟩
      intro k hk
      have := hv.1 k hk
      simpa using this
  · rw [subClaimWork_succ hT]
    simp only [schedule]
    refine ⟨hBb.now_nonneg, ?_, hBb.sub_le_now, hBb.get_le_now,
      hBb.turb_le_now, hBb.sub_head_min, hBb.get_head_min, hBb.turb_head_min,
      hBb.get_head_eq, hBb.first_put_now, ?_, ?_, ?_,
      hBb.blocked_in_waiters, hBb.no_start, ?_, hBb.assembling_logged,
      ?_, ?_, hBb.putBlocked_log, hBb.turb_head_eq, ?_, hBb.wet_get_ok,
      hBb.asm_put_ok, hBb.asm_get_nil, ?_, ?_, hBb.wet_put_nodup,
      hBb.wet_get_nodup, hBb.asm_put_nodup, ?_⟩
    · show cfg.port.sub_assembly_lines + cfg.port.turbine_assembly_cranes ≤
        b.nextSeq + 1
      have := hBb.seq_base
      omega
    · intro hsubL k hk
      obtain ⟨et, hetq, hett, hetime, hetseq⟩ := hBb.start_event hsubL k hk
      exact ⟨et, List.mem_append_left _ hetq, hett, hetime, hetseq⟩
    · intro hsubL j f hj hf hft
      rcases List.mem_append.mp hf with hf | hf
      · by_cases hji : j = i - 1
        · subst hji
          exfalso
          refine hnoev f hf ?_
          rw [hft]
          congr 1
          omega
        · rw [List.getElem?_set_ne (fun hcon => hji hcon.symm)] at hj
          exact hBb.producing_seq hsubL j f hj hf hft
      · rcases List.mem_singleton.mp hf with rfl
        exact hBb.seq_base
    · intro hsubL j
      by_cases hji : j = i - 1
      · subst hji
        rw [List.getElem?_set_self hilen]
        intro hcon
        cases hcon
      · rw [List.getElem?_set_ne (fun hcon => hji hcon.symm)]
        exact hBb.no_blocked_subs hsubL j
    · intro ht hs hg
      obtain ⟨k, w, hkst, hwq, hwt, hwtime⟩ := hBb.woken ht hs hg
      exact ⟨k, w, hkst, List.mem_append_left _ hwq, hwt, hwtime⟩
    · intro k t0 f hk hf hft
      rcases List.mem_append.mp hf with hf | hf
      · exact hBb.assembling_time k t0 f hk hf hft
      · rcases List.mem_singleton.mp hf with rfl
        simp at hft
    · intro g hg
      rcases hBb.get_head_progress g hg with hl | ⟨hstate, f, hfq, hft, hftime⟩
      · exact Or.inl hl
      · exact Or.inr ⟨hstate, f, List.mem_append_left _ hfq, hft, hftime⟩
    · intro p hp
      obtain ⟨k, hpk, hk1, hkst⟩ := hBb.wet_put_ok p hp
      refine ⟨k, hpk, hk1, ?_⟩
      have hne : k - 1 ≠ i - 1 := by
        intro hcon
        have hki : k = i := by omega
        rw [hki] at hpk
        rw [hpk] at hp
        exact hnotin hp
      rw [List.getElem?_set_ne (fun hcon => hne hcon.symm)]
      exact hkst
    · intro p hp f hf
      rcases List.mem_append.mp hf with hf | hf
      · exact hBb.waiter_no_event p hp f hf
      · rcases List.mem_singleton.mp hf with rfl
        simp only
        intro hcon
        rcases hp with hp | hp | hp
        · obtain ⟨k, hpk, hk1, hkst⟩ := hBb.wet_put_ok p hp
          rw [hpk] at hcon
          have hki : k = i := by
            have := hcon
            simp at this
            omega
          rw [hki] at hpk
          rw [hpk] at hp
          exact hnotin hp
        · obtain ⟨k, hpk, hk1, hkst⟩ := hBb.wet_get_ok p hp
          rw [hpk] at hcon
          simp at hcon
        · obtain ⟨k, t0, hpk, hk1, hkst⟩ := hBb.asm_put_ok p hp
          rw [hpk] at hcon
          simp at hcon
    · refine target_unique_append hBb.target_unique ?_
      intro x hx
      exact hnoev x hx
    · intro f hf
      rcases List.mem_append.mp hf with hf | hf
      · have hv := hBb.valid f hf
        refine ⟨?_, hv.2⟩
        intro k hk
        have := hv.1 k hk
        simpa using this
      · rcases List.mem_singleton.mp hf with rfl
        constructor
        · intro k hk
          injection hk with hik
          subst hik
          refine ⟨hi1, ?_⟩
          show i ≤ (b.subs.set (i - 1) SubState.producing).length
          rw [List.length_set]
          omega
        · intro k hk
          simp at hk

/-- A some-valued lookup bounds the index. -/
theorem lt_length_of_getElem?_some {α : Type} {l : List α} {n : ℕ} {a : α}
    (h : l[n]? = some a) : n < l.length := by
  by_contra hc
  rw [List.getElem?_eq_none (not_lt.mp hc)] at h
  cases h

/-- Appending a no-earlier entry keeps the head minimal. -/
theorem head_min_concat {l : List (ℕ × Time)} {a : ℕ × Time}
    (hle : ∀ x ∈ l, x.2 ≤ a.2)
    (hmn : ∀ h x, l.head? = some h → x ∈ l → h.2 ≤ x.2) :
    ∀ h x, (l ++ [a]).head? = some h → x ∈ l ++ [a] → h.2 ≤ x.2 := by
  intro h x hh hx
  cases l with
  | nil =>
      simp at hh
      rcases List.mem_append.mp hx with hx | hx
      · exact absurd hx (List.not_mem_nil x)
      · rw [List.mem_singleton.mp hx, ← hh]
  | cons y ys =>
      simp at hh
      rcases List.mem_append.mp hx with hx | hx
      · exact hmn h x (by simp [hh]) hx
      · rw [List.mem_singleton.mp hx, ← hh]
        exact hle y (List.mem_cons_self y ys)

/-- A substructure line depositing into wet storage (then immediately
    claiming its next unit) preserves the temporal invariant.  The
    hypotheses capture the state after the fired deposit event was removed:
    no pending event aims at line i, line i is not parked in the put-waiter
    queue, and before the first deposit every turbine line is blocked on
    the empty buffer. -/
theorem invB_subAttemptPut {cfg : Config} {b : SimState} {i : ℕ}
    {st : SubState} {first : Bool}
    (hA : InvA cfg b) (hBb : InvB cfg b)
    (hnoev : ∀ x ∈ b.queue, x.target ≠ Proc.sub i)
    (hst : b.subs[i - 1]? = some st)
    (hnotin : Proc.sub i ∉ b.wet.put_waiters) (hi1 : 1 ≤ i)
    (hallb : b.subLog = [] → ∀ (k : ℕ) (tst : TurbState),
      b.turbs[k]? = some tst → tst = TurbState.getBlocked) :
    InvB cfg (subAttemptPut cfg i first b) := by
  unfold subAttemptPut
  by_cases hcap : b.wet.items.length < b.wet.capacity
  · rw [if_pos hcap]
    dsimp only
    rcases hW : b.wet.get_waiters with _ | ⟨g, rest⟩
    · rw [wakeWetGetter_nil rfl]
      refine invB_subClaimWork ?_ (fun x hx => hnoev x hx)
        (by simpa using hst) (by simpa using hnotin) hi1
      refine ⟨hBb.now_nonneg, hBb.seq_base, ?_, hBb.get_le_now,
        hBb.turb_le_now, ?_, hBb.get_head_min, hBb.turb_head_min, ?_, ?_,
        ?_, ?_, ?_, ?_, ?_, ?_, hBb.assembling_logged, hBb.assembling_time,
        hBb.get_head_progress, hBb.putBlocked_log, hBb.turb_head_eq,
        hBb.wet_put_ok, ?_, hBb.asm_put_ok, hBb.asm_get_nil, ?_,
        hBb.target_unique, hBb.wet_put_nodup, ?_, hBb.asm_put_nodup,
        hBb.valid⟩
      · intro x hx
        rcases List.mem_append.mp hx with hx | hx
        · exact hBb.sub_le_now x hx
        · rw [List.mem_singleton.mp hx]
      · exact head_min_concat hBb.sub_le_now hBb.sub_head_min
      · intro g0 hg
        have hne : b.getLog ≠ [] := by
          intro h0
          rw [h0] at hg
          cases hg
        obtain ⟨h1, hh1, hge⟩ := hBb.get_head_eq g0 hg
        refine ⟨h1, ?_, hge⟩
        rw [head?_concat_ne (subLog_ne_of_getLog_ne hA hne) (i, b.now)]
        exact hh1
      · intro ht hs hg
        by_cases h0 : b.subLog = []
        · exact ⟨(i, b.now), by simp [h0], rfl⟩
        · obtain ⟨h1, hh1, hhe⟩ := hBb.first_put_now ht h0 hg
          exact ⟨h1, by rw [head?_concat_ne h0]; exact hh1, hhe⟩
      · intro hcon
        simp at hcon
      · intro hcon
        simp at hcon
      · intro hcon
        simp at hcon
      · intro hcon
        simp at hcon
      · intro _ k hk
        by_cases h0 : b.subLog = []
        · exact absurd (hallb h0 k TurbState.start hk) (by simp)
        · exact hBb.no_start h0 k hk
      · intro ht hs hg
        by_cases h0 : b.subLog = []
        · exfalso
          cases hbt : b.turbs with
          | nil => exact ht hbt
          | cons t ts =>
              have ht0 : b.turbs[0]? = some t := by
                rw [hbt]
                simp
              have htb : t = TurbState.getBlocked := hallb h0 0 t ht0
              rw [htb] at ht0
              have hmem := hBb.blocked_in_waiters h0 0 ht0
              rw [hW] at hmem
              simp at hmem
        · obtain ⟨k, w, hkst, hwq, hwt, hwtime⟩ := hBb.woken ht h0 hg
          exact ⟨k, w, hkst, hwq, hwt, hwtime⟩
      · intro p hp
        simp at hp
      · intro p hp f hf
        rcases hp with hp | hp | hp
        · exact hBb.waiter_no_event p (Or.inl hp) f hf
        · simp at hp
        · exact hBb.waiter_no_event p (Or.inr (Or.inr hp)) f hf
      · exact List.nodup_nil
    · rw [wakeWetGetter_cons rfl]
      have hgmem : g ∈ b.wet.get_waiters := by
        rw [hW]
        exact List.mem_cons_self g rest
      obtain ⟨kg, hgpk, hkg1, hkgst⟩ := hBb.wet_get_ok g hgmem
      have hgnodup : ¬ g ∈ rest := by
        have hnd := hBb.wet_get_nodup
        rw [hW] at hnd
        exact (List.nodup_cons.mp hnd).1
      refine invB_subClaimWork ?_ ?_ (by simpa [schedule] using hst)
        (by simpa [schedule] using hnotin) hi1
      · unfold schedule
        refine ⟨hBb.now_nonneg, ?_, ?_, hBb.get_le_now, hBb.turb_le_now, ?_,
          hBb.get_head_min, hBb.turb_head_min, ?_, ?_, ?_, ?_, ?_, ?_, ?_,
          ?_, hBb.assembling_logged, ?_, ?_, hBb.putBlocked_log,
          hBb.turb_head_eq, hBb.wet_put_ok, ?_, hBb.asm_put_ok,
          hBb.asm_get_nil, ?_, ?_, hBb.wet_put_nodup, ?_, hBb.asm_put_nodup,
          ?_⟩
        · have hsb := hBb.seq_base
          show cfg.port.sub_assembly_lines + cfg.port.turbine_assembly_cranes ≤
            b.nextSeq + 1
          omega
        · intro x hx
          rcases List.mem_append.mp hx with hx | hx
          · exact hBb.sub_le_now x hx
          · rw [List.mem_singleton.mp hx]
        · exact head_min_concat hBb.sub_le_now hBb.sub_head_min
        · intro g0 hg
          have hne : b.getLog ≠ [] := by
            intro h0
            rw [h0] at hg
            cases hg
          obtain ⟨h1, hh1, hge⟩ := hBb.get_head_eq g0 hg
          refine ⟨h1, ?_, hge⟩
          rw [head?_concat_ne (subLog_ne_of_getLog_ne hA hne) (i, b.now)]
          exact hh1
        · intro ht hs hg
          by_cases h0 : b.subLog = []
          · exact ⟨(i, b.now), by simp [h0], rfl⟩
          · obtain ⟨h1, hh1, hhe⟩ := hBb.first_put_now ht h0 hg
            exact ⟨h1, by rw [head?_concat_ne h0]; exact hh1, hhe⟩
        · intro hcon
          simp at hcon
        · intro hcon
          simp at hcon
        · intro hcon
          simp at hcon
        · intro hcon
          simp at hcon
        · intro _ k hk
          by_cases h0 : b.subLog = []
          · exact absurd (hallb h0 k TurbState.start hk) (by simp)
          · exact hBb.no_start h0 k hk
        · intro ht hs hg
          by_cases h0 : b.subLog = []
          · refine ⟨kg - 1, ⟨b.now, b.nextSeq, g⟩, hkgst, ?_, ?_, rfl⟩
            · exact List.mem_append_right _ (List.mem_singleton.mpr rfl)
            · show g = Proc.turb (kg - 1 + 1)
              rw [hgpk]
              congr 1
              omega
          · obtain ⟨k, w, hkst, hwq, hwt, hwtime⟩ := hBb.woken ht h0 hg
            exact ⟨k, w, hkst, List.mem_append_left _ hwq, hwt, hwtime⟩
        · intro k t0 f hk hfq hft
          rcases List.mem_append.mp hfq with hfq | hfq
          · exact hBb.assembling_time k t0 f hk hfq hft
          · rw [List.mem_singleton.mp hfq] at hft
            have hgt : g = Proc.turb (k + 1) := hft
            rw [hgpk] at hgt
            injection hgt with hkk
            have hkm : kg - 1 = k := by omega
            rw [hkm] at hkgst
            rw [hkgst] at hk
            exact absurd hk (by simp)
        · intro g0 hg
          rcases hBb.get_head_progress g0 hg with hl | ⟨hstate, f, hfq, hft, hftime⟩
          · exact Or.inl hl
          · exact Or.inr ⟨hstate, f, List.mem_append_left _ hfq, hft, hftime⟩
        · intro p hp
          exact hBb.wet_get_ok p (by rw [hW]; exact List.mem_cons_of_mem g hp)
        · intro p hp f hf
          rcases List.mem_append.mp hf with hf | hf
          · rcases hp with hp | hp | hp
            · exact hBb.waiter_no_event p (Or.inl hp) f hf
            · exact hBb.waiter_no_event p
                (Or.inr (Or.inl (by rw [hW]; exact List.mem_cons_of_mem g hp)))
                f hf
            · exact hBb.waiter_no_event p (Or.inr (Or.inr hp)) f hf
          · rw [List.mem_singleton.mp hf]
            show g ≠ p
            rcases hp with hp | hp | hp
            · obtain ⟨k, hpk, hk1, hkst⟩ := hBb.wet_put_ok p hp
              rw [hpk, hgpk]
              simp
            · intro hcon
              rw [hcon] at hgnodup
              exact hgnodup hp
            · obtain ⟨k, t0, hpk, hk1, hkst⟩ := hBb.asm_put_ok p hp
              intro hcon
              rw [hpk, hgpk] at hcon
              injection hcon with hkk
              have hkm : kg - 1 = k - 1 := by omega
              rw [hkm, hkst] at hkgst
              exact absurd hkgst (by simp)
        · refine target_unique_append hBb.target_unique ?_
          intro x hx
          exact hBb.waiter_no_event g (Or.inr (Or.inl hgmem)) x hx
        · have hnd := hBb.wet_get_nodup
          rw [hW] at hnd
          exact (List.nodup_cons.mp hnd).2
        · intro f hf
          rcases List.mem_append.mp hf with hf | hf
          · have hv := hBb.valid f hf
            exact ⟨hv.1, hv.2⟩
          · rw [List.mem_singleton.mp hf]
            constructor
            · intro k hk
              have hgk : g = Proc.sub k := hk
              rw [hgpk] at hgk
              cases hgk
            · intro k hk
              have hgk : g = Proc.turb k := hk
              rw [hgpk] at hgk
              injection hgk with hkk
              have hlen := lt_length_of_getElem?_some hkgst
              refine ⟨by omega, ?_⟩
              show k ≤ b.turbs.length
              omega
      · intro x hx
        rcases List.mem_append.mp hx with hx | hx
        · exact hnoev x hx
        · rw [List.mem_singleton.mp hx]
          show g ≠ Proc.sub i
          rw [hgpk]
          simp
  · rw [if_neg hcap]
    dsimp only
    have hsubne : b.subLog ≠ [] := by
      have hwb := hA.wet_balance
      have hcp := hA.wet_cap_pos
      intro h0
      rw [h0] at hwb
      simp only [List.length_nil] at hwb
      omega
    have hpw : ∀ p, p ∈ (if first then b.wet.put_waiters ++ [Proc.sub i]
        else Proc.sub i :: b.wet.put_waiters) →
        p = Proc.sub i ∨ p ∈ b.wet.put_waiters := by
      intro p hp
      cases first with
      | false =>
          simp only [if_neg Bool.false_ne_true] at hp
          rcases List.mem_cons.mp hp with hp | hp
          · exact Or.inl hp
          · exact Or.inr hp
      | true =>
          simp only [if_pos rfl] at hp
          rcases List.mem_append.mp hp with hp | hp
          · exact Or.inr hp
          · exact Or.inl (List.mem_singleton.mp hp)
    refine ⟨hBb.now_nonneg, hBb.seq_base, hBb.sub_le_now, hBb.get_le_now,
      hBb.turb_le_now, hBb.sub_head_min, hBb.get_head_min,
      hBb.turb_head_min, hBb.get_head_eq, ?_, ?_, ?_, ?_, ?_, ?_, ?_,
      hBb.assembling_logged, hBb.assembling_time, hBb.get_head_progress,
      hBb.putBlocked_log, hBb.turb_head_eq, ?_, ?_, hBb.asm_put_ok,
      hBb.asm_get_nil, ?_, hBb.target_unique, ?_, hBb.wet_get_nodup,
      hBb.asm_put_nodup, ?_⟩
    · intro ht hs hg
      exact hBb.first_put_now ht hsubne hg
    · intro h0
      exact absurd h0 hsubne
    · intro h0
      exact absurd h0 hsubne
    · intro h0
      exact absurd h0 hsubne
    · intro h0
      exact absurd h0 hsubne
    · intro _ k hk
      exact hBb.no_start hsubne k hk
    · intro ht hs hg
      obtain ⟨k, w, hkst, hwq, hwt, hwtime⟩ := hBb.woken ht hsubne hg
      exact ⟨k, w, hkst, hwq, hwt, hwtime⟩
    · intro p hp
      rcases hpw p hp with hp2 | hp2
      · refine ⟨i, hp2, hi1, ?_⟩
        have hlen := lt_length_of_getElem?_some hst
        rw [List.getElem?_set_self hlen]
      · obtain ⟨k, hpk, hk1, hkst⟩ := hBb.wet_put_ok p hp2
        refine ⟨k, hpk, hk1, ?_⟩
        have hne : k - 1 ≠ i - 1 := by
          intro hcon
          have hki : k = i := by omega
          rw [hki] at hpk
          rw [hpk] at hp2
          exact hnotin hp2
        rw [List.getElem?_set_ne (fun hcon => hne hcon.symm)]
        exact hkst
    · intro p hp
      obtain ⟨k, hpk, hk1, hkst⟩ := hBb.wet_get_ok p hp
      exact ⟨k, hpk, hk1, hkst⟩
    · intro p hp f hf
      rcases hp with hp | hp | hp
      · rcases hpw p hp with hp2 | hp2
        · rw [hp2]
          exact hnoev f hf
        · exact hBb.waiter_no_event p (Or.inl hp2) f hf
      · exact hBb.waiter_no_event p (Or.inr (Or.inl hp)) f hf
      · exact hBb.waiter_no_event p (Or.inr (Or.inr hp)) f hf
    · show (if first = true then b.wet.put_waiters ++ [Proc.sub i]
        else Proc.sub i :: b.wet.put_waiters).Nodup
      cases first with
      | false =>
          show (Proc.sub i :: b.wet.put_waiters).Nodup
          exact List.nodup_cons.mpr ⟨hnotin, hBb.wet_put_nodup⟩
      | true =>
          show (b.wet.put_waiters ++ [Proc.sub i]).Nodup
          rw [List.nodup_append]
          refine ⟨hBb.wet_put_nodup, List.nodup_singleton _, ?_⟩
          intro p hp hps
          rw [List.mem_singleton.mp hps] at hp
          exact hnotin hp
    · intro f hf
      have hv := hBb.valid f hf
      refine ⟨?_, hv.2⟩
      intro k hk
      have := hv.1 k hk
      rw [List.length_set]
      exact this

/-- A turbine line taking from wet storage (or blocking on it when empty)
    preserves the temporal invariant.  Hypotheses describe the state after
    the fired event aimed at turbine line i was removed: no pending event
    aims at line i, the line is neither parked in the wet get-waiter queue
    nor in the assembly put-waiter queue, and it holds no unit yet. -/
theorem invB_turbAttemptGet {cfg : Config} {b : SimState} {i : ℕ}
    {tst : TurbState} {first : Bool}
    (hwb : b.getLog.length + b.wet.items.length = b.subLog.length)
    (hBb : InvBx cfg b i)
    (hnoev : ∀ x ∈ b.queue, x.target ≠ Proc.turb i)
    (hst : b.turbs[i - 1]? = some tst)
    (hpr : ∀ g, b.getLog.head? = some g →
      b.turbs[g.1 - 1]? = some (TurbState.assembling g.2) →
      b.turbLog ≠ [] ∨ g.1 - 1 ≠ i - 1)
    (hng : Proc.turb i ∉ b.wet.get_waiters)
    (hna : Proc.turb i ∉ b.assembly.put_waiters)
    (hi1 : 1 ≤ i) :
    InvB cfg (turbAttemptGet cfg i first b) := by
  have hilen : i - 1 < b.turbs.length := lt_length_of_getElem?_some hst
  have htne : b.turbs ≠ [] := by
    intro h0
    rw [h0] at hst
    simp at hst
  unfold turbAttemptGet
  rcases hIt : b.wet.items with _ | ⟨x0, irest⟩
  · dsimp only
    have hgw_cases : ∀ p, p ∈ (if first = true
        then b.wet.get_waiters ++ [Proc.turb i]
        else Proc.turb i :: b.wet.get_waiters) →
        p = Proc.turb i ∨ p ∈ b.wet.get_waiters := by
      intro p hp
      cases first with
      | false =>
          rcases List.mem_cons.mp hp with hp | hp
          · exact Or.inl hp
          · exact Or.inr hp
      | true =>
          rcases List.mem_append.mp hp with hp | hp
          · exact Or.inr hp
          · exact Or.inl (List.mem_singleton.mp hp)
    have hgw_sub : ∀ p ∈ b.wet.get_waiters, p ∈ (if first = true
        then b.wet.get_waiters ++ [Proc.turb i]
        else Proc.turb i :: b.wet.get_waiters) := by
      intro p hp
      cases first with
      | false => exact List.mem_cons_of_mem _ hp
      | true => exact List.mem_append_left _ hp
    have hgw_self : Proc.turb i ∈ (if first = true
        then b.wet.get_waiters ++ [Proc.turb i]
        else Proc.turb i :: b.wet.get_waiters) := by
      cases first with
      | false => exact List.mem_cons_self _ _
      | true => exact List.mem_append_right _ (List.mem_singleton.mpr rfl)
    refine ⟨hBb.now_nonneg, hBb.seq_base, hBb.sub_le_now, hBb.get_le_now,
      hBb.turb_le_now, hBb.sub_head_min, hBb.get_head_min,
      hBb.turb_head_min, hBb.get_head_eq, ?_, ?_, hBb.producing_seq,
      hBb.no_blocked_subs, ?_, ?_, ?_, ?_, ?_, ?_, ?_, hBb.turb_head_eq,
      hBb.wet_put_ok, ?_, ?_, hBb.asm_get_nil, ?_, hBb.target_unique,
      hBb.wet_put_nodup, ?_, hBb.asm_put_nodup, ?_⟩
    · intro ht hs hg
      exact hBb.first_put_now htne hs hg
    · intro h0 k hk
      by_cases hk0 : k = i - 1
      · rw [hk0, List.getElem?_set_self hilen] at hk
        cases hk
      · rw [List.getElem?_set_ne (fun hcon => hk0 hcon.symm)] at hk
        exact hBb.start_event h0 k hk0 hk
    · intro h0 k hk
      by_cases hk0 : k = i - 1
      · have hki : k + 1 = i := by omega
        rw [hki]
        exact hgw_self
      · rw [List.getElem?_set_ne (fun hcon => hk0 hcon.symm)] at hk
        exact hgw_sub _ (hBb.blocked_in_waiters h0 k hk)
    · intro hs k hk
      by_cases hk0 : k = i - 1
      · rw [hk0, List.getElem?_set_self hilen] at hk
        cases hk
      · rw [List.getElem?_set_ne (fun hcon => hk0 hcon.symm)] at hk
        exact hBb.no_start hs k hk
    · intro ht hs hg
      exfalso
      have hs2 : b.subLog ≠ [] := hs
      have hg2 : b.getLog = [] := hg
      rw [hg2, hIt] at hwb
      simp only [List.length_nil, Nat.add_zero, Nat.zero_add] at hwb
      exact hs2 (List.length_eq_zero.mp hwb.symm)
    · intro k t0 hk
      by_cases hk0 : k = i - 1
      · rw [hk0, List.getElem?_set_self hilen] at hk
        rcases hk with hk | hk
        · cases hk
        · cases hk
      · rw [List.getElem?_set_ne (fun hcon => hk0 hcon.symm)] at hk
        exact hBb.assembling_logged k t0 hk
    · intro k t0 f hk hfq hft
      by_cases hk0 : k = i - 1
      · rw [hk0, List.getElem?_set_self hilen] at hk
        cases hk
      · rw [List.getElem?_set_ne (fun hcon => hk0 hcon.symm)] at hk
        exact hBb.assembling_time k t0 f hk hfq hft
    · intro g hg
      rcases hBb.get_head_progress g hg with hl | ⟨hstate, heq⟩ | ⟨hstate, f, hfq, hft, hftime⟩
      · exact Or.inl hl
      · rcases hpr g hg hstate with hl | hk0
        · exact Or.inl hl
        · exact absurd heq hk0
      · rcases hpr g hg hstate with hl | hk0
        · exact Or.inl hl
        · refine Or.inr ⟨?_, f, hfq, hft, hftime⟩
          rw [List.getElem?_set_ne (fun hcon => hk0 hcon.symm)]
          exact hstate
    · intro k t0 hk
      by_cases hk0 : k = i - 1
      · rw [hk0, List.getElem?_set_self hilen] at hk
        cases hk
      · rw [List.getElem?_set_ne (fun hcon => hk0 hcon.symm)] at hk
        exact hBb.putBlocked_log k t0 hk
    · intro p hp
      rcases hgw_cases p hp with hp2 | hp2
      · refine ⟨i, hp2, hi1, ?_⟩
        rw [List.getElem?_set_self hilen]
      · obtain ⟨k, hpk, hk1, hkst⟩ := hBb.wet_get_ok p hp2
        refine ⟨k, hpk, hk1, ?_⟩
        have hki : k - 1 ≠ i - 1 := by
          intro hcon
          have : k = i := by omega
          rw [this] at hpk
          rw [hpk] at hp2
          exact hng hp2
        rw [List.getElem?_set_ne (fun hcon => hki hcon.symm)]
        exact hkst
    · intro p hp
      obtain ⟨k, t0, hpk, hk1, hkst⟩ := hBb.asm_put_ok p hp
      refine ⟨k, t0, hpk, hk1, ?_⟩
      have hki : k - 1 ≠ i - 1 := by
        intro hcon
        have : k = i := by omega
        rw [this] at hpk
        rw [hpk] at hp
        exact hna hp
      rw [List.getElem?_set_ne (fun hcon => hki hcon.symm)]
      exact hkst
    · intro p hp f hf
      rcases hp with hp | hp | hp
      · exact hBb.waiter_no_event p (Or.inl hp) f hf
      · rcases hgw_cases p hp with hp2 | hp2
        · rw [hp2]
          exact hnoev f hf
        · exact hBb.waiter_no_event p (Or.inr (Or.inl hp2)) f hf
      · exact hBb.waiter_no_event p (Or.inr (Or.inr hp)) f hf
    · show (if first = true then b.wet.get_waiters ++ [Proc.turb i]
        else Proc.turb i :: b.wet.get_waiters).Nodup
      cases first with
      | false =>
          show (Proc.turb i :: b.wet.get_waiters).Nodup
          exact List.nodup_cons.mpr ⟨hng, hBb.wet_get_nodup⟩
      | true =>
          show (b.wet.get_waiters ++ [Proc.turb i]).Nodup
          rw [List.nodup_append]
          refine ⟨hBb.wet_get_nodup, List.nodup_singleton _, ?_⟩
          intro p hp hps
          rw [List.mem_singleton.mp hps] at hp
          exact hng hp
    · intro f hf
      have hv := hBb.valid f hf
      refine ⟨hv.1, ?_⟩
      intro k hk
      have := hv.2 k hk
      rw [List.length_set]
      exact this
  · dsimp only
    have hsubne : b.subLog ≠ [] := by
      intro h0
      rw [h0, hIt] at hwb
      simp only [List.length_nil, List.length_cons] at hwb
      omega
    rcases hPW : b.wet.put_waiters with _ | ⟨p0, prest⟩
    · rw [wakeWetPutter_nil rfl]
      unfold schedule
      refine ⟨hBb.now_nonneg, ?_, hBb.sub_le_now, ?_, hBb.turb_le_now,
        hBb.sub_head_min, ?_, hBb.turb_head_min, ?_, ?_, ?_, ?_, ?_, ?_,
        ?_, ?_, ?_, ?_, ?_, ?_, ?_, ?_, ?_, ?_, hBb.asm_get_nil, ?_, ?_,
        List.nodup_nil, hBb.wet_get_nodup, hBb.asm_put_nodup, ?_⟩
      · have hsb := hBb.seq_base
        show cfg.port.sub_assembly_lines + cfg.port.turbine_assembly_cranes ≤
          b.nextSeq + 1
        omega
      · intro x hx
        rcases List.mem_append.mp hx with hx | hx
        · exact hBb.get_le_now x hx
        · rw [List.mem_singleton.mp hx]
      · exact head_min_concat hBb.get_le_now hBb.get_head_min
      · intro g hg
        by_cases hgl : b.getLog = []
        · rw [hgl] at hg
          simp only [List.nil_append, List.head?_cons] at hg
          injection hg with hg
          subst hg
          obtain ⟨h1, hh1, hhe⟩ := hBb.first_put_now htne hsubne hgl
          exact ⟨h1, hh1, hhe.symm⟩
        · rw [head?_concat_ne hgl] at hg
          exact hBb.get_head_eq g hg
      · intro ht hs hg
        simp at hg
      · intro h0
        exact absurd h0 hsubne
      · intro h0
        exact absurd h0 hsubne
      · intro h0
        exact absurd h0 hsubne
      · intro h0
        exact absurd h0 hsubne
      · intro _ k hk
        by_cases hk0 : k = i - 1
        · rw [hk0, List.getElem?_set_self hilen] at hk
          cases hk
        · rw [List.getElem?_set_ne (fun hcon => hk0 hcon.symm)] at hk
          exact hBb.no_start hsubne k hk
      · intro ht hs hg
        simp at hg
      · intro k t0 hk
        by_cases hk0 : k = i - 1
        · rw [hk0, List.getElem?_set_self hilen] at hk
          rcases hk with hk | hk
          · injection hk with hk2
            injection hk2 with hk3
            refine List.mem_append_right _ ?_
            have hki : k + 1 = i := by omega
            rw [hki, ← hk3]
            exact List.mem_singleton.mpr rfl
          · cases hk
        · rw [List.getElem?_set_ne (fun hcon => hk0 hcon.symm)] at hk
          exact List.mem_append_left _ (hBb.assembling_logged k t0 hk)
      · intro k t0 f hk hfq hft
        by_cases hk0 : k = i - 1
        · rw [hk0, List.getElem?_set_self hilen] at hk
          injection hk with hk2
          injection hk2 with hk3
          rcases List.mem_append.mp hfq with hfq | hfq
          · exfalso
            have hki : k + 1 = i := by omega
            rw [hki] at hft
            exact hnoev f hfq hft
          · rw [List.mem_singleton.mp hfq]
            show b.now + cfg.turbine_takt = t0 + cfg.turbine_takt
            rw [← hk3]
        · rw [List.getElem?_set_ne (fun hcon => hk0 hcon.symm)] at hk
          rcases List.mem_append.mp hfq with hfq | hfq
          · exact hBb.assembling_time k t0 f hk hfq hft
          · exfalso
            rw [List.mem_singleton.mp hfq] at hft
            have hft2 : Proc.turb i = Proc.turb (k + 1) := hft
            injection hft2 with hft3
            omega
      · intro g hg
        by_cases hgl : b.getLog = []
        · rw [hgl] at hg
          simp only [List.nil_append, List.head?_cons] at hg
          injection hg with hg
          subst hg
          refine Or.inr ⟨?_, ⟨b.now + cfg.turbine_takt, b.nextSeq, Proc.turb i⟩,
            List.mem_append_right _ (List.mem_singleton.mpr rfl), ?_, ?_⟩
          · show (b.turbs.set (i - 1) (TurbState.assembling b.now))[i - 1]? =
              some (TurbState.assembling b.now)
            rw [List.getElem?_set_self hilen]
          · rfl
          · rfl
        · rw [head?_concat_ne hgl] at hg
          rcases hBb.get_head_progress g hg with hl | ⟨hstate, heq⟩ | ⟨hstate, f, hfq, hft, hftime⟩
          · exact Or.inl hl
          · rcases hpr g hg hstate with hl | hk0
            · exact Or.inl hl
            · exact absurd heq hk0
          · rcases hpr g hg hstate with hl | hk0
            · exact Or.inl hl
            · refine Or.inr ⟨?_, f, List.mem_append_left _ hfq, hft, hftime⟩
              rw [List.getElem?_set_ne (fun hcon => hk0 hcon.symm)]
              exact hstate
      · intro k t0 hk
        by_cases hk0 : k = i - 1
        · rw [hk0, List.getElem?_set_self hilen] at hk
          cases hk
        · rw [List.getElem?_set_ne (fun hcon => hk0 hcon.symm)] at hk
          exact hBb.putBlocked_log k t0 hk
      · intro x hx
        obtain ⟨g, hgh, hxe⟩ := hBb.turb_head_eq x hx
        have hne : b.getLog ≠ [] := by
          intro h0
          rw [h0] at hgh
          cases hgh
        refine ⟨g, ?_, hxe⟩
        rw [head?_concat_ne hne]
        exact hgh
      · intro p hp
        simp at hp
      · intro p hp
        obtain ⟨k, hpk, hk1, hkst⟩ := hBb.wet_get_ok p hp
        refine ⟨k, hpk, hk1, ?_⟩
        have hki : k - 1 ≠ i - 1 := by
          intro hcon
          have : k = i := by omega
          rw [this] at hpk
          rw [hpk] at hp
          exact hng hp
        rw [List.getElem?_set_ne (fun hcon => hki hcon.symm)]
        exact hkst
      · intro p hp
        obtain ⟨k, t0, hpk, hk1, hkst⟩ := hBb.asm_put_ok p hp
        refine ⟨k, t0, hpk, hk1, ?_⟩
        have hki : k - 1 ≠ i - 1 := by
          intro hcon
          have : k = i := by omega
          rw [this] at hpk
          rw [hpk] at hp
          exact hna hp
        rw [List.getElem?_set_ne (fun hcon => hki hcon.symm)]
        exact hkst
      · intro p hp f hf
        rcases List.mem_append.mp hf with hf | hf
        · rcases hp with hp | hp | hp
          · simp at hp
          · exact hBb.waiter_no_event p (Or.inr (Or.inl hp)) f hf
          · exact hBb.waiter_no_event p (Or.inr (Or.inr hp)) f hf
        · rw [List.mem_singleton.mp hf]
          show Proc.turb i ≠ p
          intro hcon
          rcases hp with hp | hp | hp
          · simp at hp
          · rw [← hcon] at hp
            exact hng hp
          · rw [← hcon] at hp
            exact hna hp
      · refine target_unique_append hBb.target_unique ?_
        intro x hx
        exact hnoev x hx
      · intro f hf
        rcases List.mem_append.mp hf with hf | hf
        · have hv := hBb.valid f hf
          refine ⟨hv.1, ?_⟩
          intro k hk
          have := hv.2 k hk
          rw [List.length_set]
          exact this
        · rw [List.mem_singleton.mp hf]
          constructor
          · intro k hk
            cases hk
          · intro k hk
            have hk2 : Proc.turb i = Proc.turb k := hk
            injection hk2 with hk3
            refine ⟨by omega, ?_⟩
            rw [List.length_set]
            show k ≤ b.turbs.length
            omega
    · rw [wakeWetPutter_cons rfl]
      unfold schedule
      have hp0mem : p0 ∈ b.wet.put_waiters := by
        rw [hPW]
        exact List.mem_cons_self _ _
      obtain ⟨j0, hp0k, hj01, hj0st⟩ := hBb.wet_put_ok p0 hp0mem
      have hp0nodup : ¬ p0 ∈ prest := by
        have hnd := hBb.wet_put_nodup
        rw [hPW] at hnd
        exact (List.nodup_cons.mp hnd).1
      refine ⟨hBb.now_nonneg, ?_, hBb.sub_le_now, ?_, hBb.turb_le_now,
        hBb.sub_head_min, ?_, hBb.turb_head_min, ?_, ?_, ?_, ?_, ?_, ?_,
        ?_, ?_, ?_, ?_, ?_, ?_, ?_, ?_, ?_, ?_, hBb.asm_get_nil, ?_, ?_,
        ?_, hBb.wet_get_nodup, hBb.asm_put_nodup, ?_⟩
      · have hsb := hBb.seq_base
        show cfg.port.sub_assembly_lines + cfg.port.turbine_assembly_cranes ≤
          b.nextSeq + 1 + 1
        omega
      · intro x hx
        rcases List.mem_append.mp hx with hx | hx
        · exact hBb.get_le_now x hx
        · rw [List.mem_singleton.mp hx]
      · exact head_min_concat hBb.get_le_now hBb.get_head_min
      · intro g hg
        by_cases hgl : b.getLog = []
        · rw [hgl] at hg
          simp only [List.nil_append, List.head?_cons] at hg
          injection hg with hg
          subst hg
          obtain ⟨h1, hh1, hhe⟩ := hBb.first_put_now htne hsubne hgl
          exact ⟨h1, hh1, hhe.symm⟩
        · rw [head?_concat_ne hgl] at hg
          exact hBb.get_head_eq g hg
      · intro ht hs hg
        simp at hg
      · intro h0
        exact absurd h0 hsubne
      · intro h0
        exact absurd h0 hsubne
      · intro h0
        exact absurd h0 hsubne
      · intro h0
        exact absurd h0 hsubne
      · intro _ k hk
        by_cases hk0 : k = i - 1
        · rw [hk0, List.getElem?_set_self hilen] at hk
          cases hk
        · rw [List.getElem?_set_ne (fun hcon => hk0 hcon.symm)] at hk
          exact hBb.no_start hsubne k hk
      · intro ht hs hg
        simp at hg
      · intro k t0 hk
        by_cases hk0 : k = i - 1
        · rw [hk0, List.getElem?_set_self hilen] at hk
          rcases hk with hk | hk
          · injection hk with hk2
            injection hk2 with hk3
            refine List.mem_append_right _ ?_
            have hki : k + 1 = i := by omega
            rw [hki, ← hk3]
            exact List.mem_singleton.mpr rfl
          · cases hk
        · rw [List.getElem?_set_ne (fun hcon => hk0 hcon.symm)] at hk
          exact List.mem_append_left _ (hBb.assembling_logged k t0 hk)
      · intro k t0 f hk hfq hft
        by_cases hk0 : k = i - 1
        · rw [hk0, List.getElem?_set_self hilen] at hk
          injection hk with hk2
          injection hk2 with hk3
          rcases List.mem_append.mp hfq with hfq | hfq
          · rcases List.mem_append.mp hfq with hfq | hfq
            · exfalso
              have hki : k + 1 = i := by omega
              rw [hki] at hft
              exact hnoev f hfq hft
            · exfalso
              rw [List.mem_singleton.mp hfq] at hft
              have hft2 : p0 = Proc.turb (k + 1) := hft
              rw [hp0k] at hft2
              cases hft2
          · rw [List.mem_singleton.mp hfq]
            show b.now + cfg.turbine_takt = t0 + cfg.turbine_takt
            rw [← hk3]
        · rw [List.getElem?_set_ne (fun hcon => hk0 hcon.symm)] at hk
          rcases List.mem_append.mp hfq with hfq | hfq
          · rcases List.mem_append.mp hfq with hfq | hfq
            · exact hBb.assembling_time k t0 f hk hfq hft
            · exfalso
              rw [List.mem_singleton.mp hfq] at hft
              have hft2 : p0 = Proc.turb (k + 1) := hft
              rw [hp0k] at hft2
              cases hft2
          · exfalso
            rw [List.mem_singleton.mp hfq] at hft
            have hft2 : Proc.turb i = Proc.turb (k + 1) := hft
            injection hft2 with hft3
            omega
      · intro g hg
        by_cases hgl : b.getLog = []
        · rw [hgl] at hg
          simp only [List.nil_append, List.head?_cons] at hg
          injection hg with hg
          subst hg
          refine Or.inr ⟨?_,
            ⟨b.now + cfg.turbine_takt, b.nextSeq + 1, Proc.turb i⟩,
            List.mem_append_right _ (List.mem_singleton.mpr rfl), ?_, ?_⟩
          · show (b.turbs.set (i - 1) (TurbState.assembling b.now))[i - 1]? =
              some (TurbState.assembling b.now)
            rw [List.getElem?_set_self hilen]
          · rfl
          · rfl
        · rw [head?_concat_ne hgl] at hg
          rcases hBb.get_head_progress g hg with hl | ⟨hstate, heq⟩ | ⟨hstate, f, hfq, hft, hftime⟩
          · exact Or.inl hl
          · rcases hpr g hg hstate with hl | hk0
            · exact Or.inl hl
            · exact absurd heq hk0
          · rcases hpr g hg hstate with hl | hk0
            · exact Or.inl hl
            · refine Or.inr ⟨?_, f,
                List.mem_append_left _ (List.mem_append_left _ hfq), hft, hftime⟩
              rw [List.getElem?_set_ne (fun hcon => hk0 hcon.symm)]
              exact hstate
      · intro k t0 hk
        by_cases hk0 : k = i - 1
        · rw [hk0, List.getElem?_set_self hilen] at hk
          cases hk
        · rw [List.getElem?_set_ne (fun hcon => hk0 hcon.symm)] at hk
          exact hBb.putBlocked_log k t0 hk
      · intro x hx
        obtain ⟨g, hgh, hxe⟩ := hBb.turb_head_eq x hx
        have hne : b.getLog ≠ [] := by
          intro h0
          rw [h0] at hgh
          cases hgh
        refine ⟨g, ?_, hxe⟩
        rw [head?_concat_ne hne]
        exact hgh
      · intro p hp
        obtain ⟨k, hpk, hk1, hkst⟩ := hBb.wet_put_ok p
          (by rw [hPW]; exact List.mem_cons_of_mem _ hp)
        exact ⟨k, hpk, hk1, hkst⟩
      · intro p hp
        obtain ⟨k, hpk, hk1, hkst⟩ := hBb.wet_get_ok p hp
        refine ⟨k, hpk, hk1, ?_⟩
        have hki : k - 1 ≠ i - 1 := by
          intro hcon
          have : k = i := by omega
          rw [this] at hpk
          rw [hpk] at hp
          exact hng hp
        rw [List.getElem?_set_ne (fun hcon => hki hcon.symm)]
        exact hkst
      · intro p hp
        obtain ⟨k, t0, hpk, hk1, hkst⟩ := hBb.asm_put_ok p hp
        refine ⟨k, t0, hpk, hk1, ?_⟩
        have hki : k - 1 ≠ i - 1 := by
          intro hcon
          have : k = i := by omega
          rw [this] at hpk
          rw [hpk] at hp
          exact hna hp
        rw [List.getElem?_set_ne (fun hcon => hki hcon.symm)]
        exact hkst
      · intro p hp f hf
        rcases List.mem_append.mp hf with hf | hf
        · rcases List.mem_append.mp hf with hf | hf
          · rcases hp with hp | hp | hp
            · exact hBb.waiter_no_event p
                (Or.inl (by rw [hPW]; exact List.mem_cons_of_mem _ hp)) f hf
            · exact hBb.waiter_no_event p (Or.inr (Or.inl hp)) f hf
            · exact hBb.waiter_no_event p (Or.inr (Or.inr hp)) f hf
          · rw [List.mem_singleton.mp hf]
            show p0 ≠ p
            intro hcon
            rcases hp with hp | hp | hp
            · rw [hcon] at hp0nodup
              exact hp0nodup hp
            · obtain ⟨k, hpk, hk1, hkst⟩ := hBb.wet_get_ok p hp
              rw [hpk, hp0k] at hcon
              cases hcon
            · obtain ⟨k, t0, hpk, hk1, hkst⟩ := hBb.asm_put_ok p hp
              rw [hpk, hp0k] at hcon
              cases hcon
        · rw [List.mem_singleton.mp hf]
          show Proc.turb i ≠ p
          intro hcon
          rcases hp with hp | hp | hp
          · obtain ⟨k, hpk, hk1, hkst⟩ := hBb.wet_put_ok p
              (by rw [hPW]; exact List.mem_cons_of_mem _ hp)
            rw [hpk] at hcon
            cases hcon
          · rw [← hcon] at hp
            exact hng hp
          · rw [← hcon] at hp
            exact hna hp
      · refine target_unique_append ?_ ?_
        · refine target_unique_append hBb.target_unique ?_
          intro x hx
          show x.target ≠ p0
          exact hBb.waiter_no_event p0 (Or.inl hp0mem) x hx
        · intro x hx
          rcases List.mem_append.mp hx with hx | hx
          · exact hnoev x hx
          · rw [List.mem_singleton.mp hx]
            show p0 ≠ Proc.turb i
            rw [hp0k]
            simp
      · have hnd := hBb.wet_put_nodup
        rw [hPW] at hnd
        exact (List.nodup_cons.mp hnd).2
      · intro f hf
        rcases List.mem_append.mp hf with hf | hf
        · rcases List.mem_append.mp hf with hf | hf
          · have hv := hBb.valid f hf
            refine ⟨hv.1, ?_⟩
            intro k hk
            have := hv.2 k hk
            rw [List.length_set]
            exact this
          · rw [List.mem_singleton.mp hf]
            constructor
            · intro k hk
              have hk2 : p0 = Proc.sub k := hk
              rw [hp0k] at hk2
              injection hk2 with hk3
              have hlen := lt_length_of_getElem?_some hj0st
              refine ⟨by omega, ?_⟩
              show k ≤ b.subs.length
              omega
            · intro k hk
              have hk2 : p0 = Proc.turb k := hk
              rw [hp0k] at hk2
              cases hk2
        · rw [List.mem_singleton.mp hf]
          constructor
          · intro k hk
            cases hk
          · intro k hk
            have hk2 : Proc.turb i = Proc.turb k := hk
            injection hk2 with hk3
            refine ⟨by omega, ?_⟩
            rw [List.length_set]
            show k ≤ b.turbs.length
            omega

/-- A turbine line depositing its finished turbine into assembly storage
    (then going for its next substructure), or blocking on a full buffer,
    preserves the temporal invariant.  When the completion log is still
    empty the dispatch happened exactly at the line's completion instant
    t0 + turbine_takt. -/
theorem invB_turbAttemptPut {cfg : Config} {b : SimState} {i : ℕ}
    {t0 : Time} {tst : TurbState} {first : Bool}
    (hA : InvA cfg b) (hBb : InvBx cfg b i)
    (hnoev : ∀ x ∈ b.queue, x.target ≠ Proc.turb i)
    (hst : b.turbs[i - 1]? = some tst)
    (htd : tst = TurbState.assembling t0 ∨ tst = TurbState.putBlocked t0)
    (hnow : b.turbLog = [] → b.now = t0 + cfg.turbine_takt)
    (hng : Proc.turb i ∉ b.wet.get_waiters)
    (hna : Proc.turb i ∉ b.assembly.put_waiters)
    (hi1 : 1 ≤ i) :
    InvB cfg (turbAttemptPut cfg i t0 first b) := by
  have hilen : i - 1 < b.turbs.length := lt_length_of_getElem?_some hst
  have htne : b.turbs ≠ [] := by
    intro h0
    rw [h0] at hst
    simp at hst
  have hilog : (i, t0) ∈ b.getLog := by
    have hl := hBb.assembling_logged (i - 1) t0 ?_
    · have hki : i - 1 + 1 = i := by omega
      rw [hki] at hl
      exact hl
    · rcases htd with htd | htd
      · left
        rw [← htd]
        exact hst
      · right
        rw [← htd]
        exact hst
  unfold turbAttemptPut
  by_cases hcap : b.assembly.items.length < b.assembly.capacity
  · rw [if_pos hcap]
    dsimp only
    have hkey := wakeAsmGetter_nil (show ({ b with
      assembly := { b.assembly with items := b.assembly.items ++ [i] },
      turbLog := b.turbLog ++ [(i, b.now)] } : SimState).assembly.get_waiters = []
      from hBb.asm_get_nil)
    rw [hkey]
    refine invB_turbAttemptGet hA.wet_balance ?_ (fun x hx => hnoev x hx)
      hst ?_ hng hna hi1
    · refine ⟨hBb.now_nonneg, hBb.seq_base, hBb.sub_le_now, hBb.get_le_now,
        ?_, hBb.sub_head_min, hBb.get_head_min, ?_, hBb.get_head_eq,
        hBb.first_put_now, hBb.start_event, hBb.producing_seq,
        hBb.no_blocked_subs, hBb.blocked_in_waiters, hBb.no_start,
        hBb.assembling_logged, hBb.assembling_time, ?_, ?_, ?_,
        hBb.wet_put_ok, hBb.wet_get_ok, hBb.asm_put_ok, hBb.asm_get_nil,
        hBb.waiter_no_event, hBb.target_unique, hBb.wet_put_nodup,
        hBb.wet_get_nodup, hBb.asm_put_nodup, hBb.valid⟩
      · intro x hx
        rcases List.mem_append.mp hx with hx | hx
        · exact hBb.turb_le_now x hx
        · rw [List.mem_singleton.mp hx]
      · exact head_min_concat hBb.turb_le_now hBb.turb_head_min
      · intro g hg
        refine Or.inl ?_
        simp
      · intro k t1 hk
        simp
      · intro x hx
        by_cases h0 : b.turbLog = []
        · rw [h0] at hx
          simp only [List.nil_append, List.head?_cons] at hx
          injection hx with hx
          subst hx
          obtain ⟨gh, hgh⟩ := head?_some_of_mem hilog
          refine ⟨gh, hgh, ?_⟩
          have hle1 : gh.2 ≤ t0 := hBb.get_head_min gh (i, t0) hgh hilog
          rcases hBb.get_head_progress gh hgh with hl | ⟨hstate, heq2⟩ | ⟨hstate, f, hfq, hft, hftime⟩
          · exact absurd hl (by rw [h0]; simp)
          · rw [heq2, hst] at hstate
            injection hstate with hstate2
            rcases htd with htd2 | htd2
            · rw [htd2] at hstate2
              injection hstate2 with hstate3
              show b.now = gh.2 + cfg.turbine_takt
              rw [hnow h0, hstate3]
            · rw [htd2] at hstate2
              cases hstate2
          · have hle2 : b.now ≤ f.time := hA.time_ge f hfq
            rw [hftime] at hle2
            have heq := hnow h0
            show b.now = gh.2 + cfg.turbine_takt
            linarith
        · rw [head?_concat_ne h0] at hx
          exact hBb.turb_head_eq x hx
    · intro g hg hstate
      refine Or.inl ?_
      simp
  · rw [if_neg hcap]
    dsimp only
    have htlne : b.turbLog ≠ [] := by
      have hail := hA.asm_items_le
      have hacp := hA.asm_cap_pos
      intro h0
      rw [h0] at hail
      simp only [List.length_nil] at hail
      omega
    have hpw_cases : ∀ p, p ∈ (if first = true
        then b.assembly.put_waiters ++ [Proc.turb i]
        else Proc.turb i :: b.assembly.put_waiters) →
        p = Proc.turb i ∨ p ∈ b.assembly.put_waiters := by
      intro p hp
      cases first with
      | false =>
          rcases List.mem_cons.mp hp with hp | hp
          · exact Or.inl hp
          · exact Or.inr hp
      | true =>
          rcases List.mem_append.mp hp with hp | hp
          · exact Or.inr hp
          · exact Or.inl (List.mem_singleton.mp hp)
    refine ⟨hBb.now_nonneg, hBb.seq_base, hBb.sub_le_now, hBb.get_le_now,
      hBb.turb_le_now, hBb.sub_head_min, hBb.get_head_min,
      hBb.turb_head_min, hBb.get_head_eq, ?_, ?_, hBb.producing_seq,
      hBb.no_blocked_subs, ?_, ?_, ?_, ?_, ?_, ?_, ?_, hBb.turb_head_eq,
      hBb.wet_put_ok, ?_, ?_, hBb.asm_get_nil, ?_, hBb.target_unique,
      hBb.wet_put_nodup, hBb.wet_get_nodup, ?_, ?_⟩
    · intro ht hs hg
      exact hBb.first_put_now htne hs hg
    · intro h0 k hk
      by_cases hk0 : k = i - 1
      · rw [hk0, List.getElem?_set_self hilen] at hk
        cases hk
      · rw [List.getElem?_set_ne (fun hcon => hk0 hcon.symm)] at hk
        exact hBb.start_event h0 k hk0 hk
    · intro h0 k hk
      by_cases hk0 : k = i - 1
      · rw [hk0, List.getElem?_set_self hilen] at hk
        cases hk
      · rw [List.getElem?_set_ne (fun hcon => hk0 hcon.symm)] at hk
        exact hBb.blocked_in_waiters h0 k hk
    · intro hs k hk
      by_cases hk0 : k = i - 1
      · rw [hk0, List.getElem?_set_self hilen] at hk
        cases hk
      · rw [List.getElem?_set_ne (fun hcon => hk0 hcon.symm)] at hk
        exact hBb.no_start hs k hk
    · intro ht hs hg
      exfalso
      have hg2 : b.getLog = [] := hg
      have hhold : TurbState.holding tst = true := by
        rcases htd with htd2 | htd2 <;> rw [htd2] <;> simp
      exact getLog_ne_of_holding hA hst hhold hg2
    · intro k t1 hk
      by_cases hk0 : k = i - 1
      · rw [hk0, List.getElem?_set_self hilen] at hk
        rcases hk with hk | hk
        · cases hk
        · injection hk with hk2
          injection hk2 with hk3
          have hki : k + 1 = i := by omega
          rw [hki, ← hk3]
          exact hilog
      · rw [List.getElem?_set_ne (fun hcon => hk0 hcon.symm)] at hk
        exact hBb.assembling_logged k t1 hk
    · intro k t1 f hk hfq hft
      by_cases hk0 : k = i - 1
      · rw [hk0, List.getElem?_set_self hilen] at hk
        cases hk
      · rw [List.getElem?_set_ne (fun hcon => hk0 hcon.symm)] at hk
        exact hBb.assembling_time k t1 f hk hfq hft
    · intro g hg
      exact Or.inl htlne
    · intro k t1 hk
      exact htlne
    · intro p hp
      obtain ⟨k, hpk, hk1, hkst⟩ := hBb.wet_get_ok p hp
      refine ⟨k, hpk, hk1, ?_⟩
      have hki : k - 1 ≠ i - 1 := by
        intro hcon
        have : k = i := by omega
        rw [this] at hpk
        rw [hpk] at hp
        exact hng hp
      rw [List.getElem?_set_ne (fun hcon => hki hcon.symm)]
      exact hkst
    · intro p hp
      rcases hpw_cases p hp with hp2 | hp2
      · refine ⟨i, t0, hp2, hi1, ?_⟩
        rw [List.getElem?_set_self hilen]
      · obtain ⟨k, t1, hpk, hk1, hkst⟩ := hBb.asm_put_ok p hp2
        refine ⟨k, t1, hpk, hk1, ?_⟩
        have hki : k - 1 ≠ i - 1 := by
          intro hcon
          have : k = i := by omega
          rw [this] at hpk
          rw [hpk] at hp2
          exact hna hp2
        rw [List.getElem?_set_ne (fun hcon => hki hcon.symm)]
        exact hkst
    · intro p hp f hf
      rcases hp with hp | hp | hp
      · exact hBb.waiter_no_event p (Or.inl hp) f hf
      · exact hBb.waiter_no_event p (Or.inr (Or.inl hp)) f hf
      · rcases hpw_cases p hp with hp2 | hp2
        · rw [hp2]
          exact hnoev f hf
        · exact hBb.waiter_no_event p (Or.inr (Or.inr hp2)) f hf
    · show (if first = true then b.assembly.put_waiters ++ [Proc.turb i]
        else Proc.turb i :: b.assembly.put_waiters).Nodup
      cases first with
      | false =>
          show (Proc.turb i :: b.assembly.put_waiters).Nodup
          exact List.nodup_cons.mpr ⟨hna, hBb.asm_put_nodup⟩
      | true =>
          show (b.assembly.put_waiters ++ [Proc.turb i]).Nodup
          rw [List.nodup_append]
          refine ⟨hBb.asm_put_nodup, List.nodup_singleton _, ?_⟩
          intro p hp hps
          rw [List.mem_singleton.mp hps] at hp
          exact hna hp
    · intro f hf
      have hv := hBb.valid f hf
      refine ⟨hv.1, ?_⟩
      intro k hk
      have := hv.2 k hk
      rw [List.length_set]
      exact this

/-- Removing the earliest event preserves the basic invariant. -/
theorem invA_removeEvent {cfg : Config} {s : SimState} {e : Event}
    (hA : InvA cfg s)
    (hmin : ∀ x ∈ s.queue, Event.before e x = true) :
    InvA cfg (removeEvent s e) := by
  refine ⟨hA.subs_len, hA.turbs_len, ?_, ?_, ?_, hA.wet_cap, hA.asm_cap,
    hA.conservation, hA.done_work, hA.wet_balance, hA.asm_balance,
    hA.asm_items_le, hA.wet_cap_pos, hA.asm_cap_pos⟩
  · intro x hx
    exact hA.seq_lt x (List.mem_of_mem_filter hx)
  · exact List.Nodup.sublist ((List.filter_sublist _).map Event.seq) hA.seq_nodup
  · intro x hx
    exact Event.before_le_time (hmin x (List.mem_of_mem_filter hx))

/-- Removing a fired earliest event aimed at a turbine line yields the
    weakened temporal invariant for that line. -/
theorem invBx_remove_turb_target {cfg : Config} {s : SimState} {e : Event}
    {i0 : ℕ}
    (hA : InvA cfg s) (hB : InvB cfg s) (he : e ∈ s.queue)
    (hmin : ∀ x ∈ s.queue, Event.before e x = true)
    (htgt : e.target = Proc.turb i0) :
    InvBx cfg (removeEvent s e) i0 := by
  have hnow : s.now ≤ e.time := hA.time_ge e he
  have hi01 : 1 ≤ i0 := ((hB.valid e he).2 i0 htgt).1
  have hkeep : ∀ x ∈ s.queue, x.target ≠ e.target →
      x ∈ (removeEvent s e).queue :=
    fun x hx ht => mem_remove_of_target_ne hA.seq_nodup he hx ht
  refine ⟨le_trans hB.now_nonneg hnow, hB.seq_base, ?_, ?_, ?_,
    hB.sub_head_min, hB.get_head_min, hB.turb_head_min, hB.get_head_eq,
    ?_, ?_, ?_, hB.no_blocked_subs, hB.blocked_in_waiters, hB.no_start,
    hB.assembling_logged, ?_, ?_, hB.putBlocked_log, hB.turb_head_eq,
    hB.wet_put_ok, hB.wet_get_ok, hB.asm_put_ok, hB.asm_get_nil, ?_, ?_,
    hB.wet_put_nodup, hB.wet_get_nodup, hB.asm_put_nodup, ?_⟩
  · exact fun x hx => le_trans (hB.sub_le_now x hx) hnow
  · exact fun x hx => le_trans (hB.get_le_now x hx) hnow
  · exact fun x hx => le_trans (hB.turb_le_now x hx) hnow
  · intro ht hs hg
    obtain ⟨h, hh, heq⟩ := hB.first_put_now ht hs hg
    refine ⟨h, hh, ?_⟩
    rw [heq]
    exact (regime_time_eq hA hB he hmin ht hs hg).symm
  · intro hsubL k hk0 hk
    obtain ⟨et, hetq, hett, hetime, hetseq⟩ := hB.start_event hsubL k hk
    refine ⟨et, hkeep et hetq ?_, hett, hetime, hetseq⟩
    rw [hett, htgt]
    intro hcon
    injection hcon with hcon2
    omega
  · intro hsubL j f hj hf hft
    exact hB.producing_seq hsubL j f hj (mem_of_mem_remove hf) hft
  · intro k t0 f hk hf hft
    exact hB.assembling_time k t0 f hk (mem_of_mem_remove hf) hft
  · intro g hg
    rcases hB.get_head_progress g hg with hl | ⟨hstate, f, hfq, hft, hftime⟩
    · exact Or.inl hl
    · by_cases hgi : g.1 = i0
      · exact Or.inr (Or.inl ⟨hstate, by rw [hgi]⟩)
      · refine Or.inr (Or.inr ⟨hstate, f, hkeep f hfq ?_, hft, hftime⟩)
        rw [hft, htgt]
        intro hcon
        injection hcon with hcon2
        exact hgi hcon2
  · intro p hp f hf
    exact hB.waiter_no_event p hp f (mem_of_mem_remove hf)
  · intro e1 e2 h1 h2 ht
    exact hB.target_unique e1 e2 (mem_of_mem_remove h1) (mem_of_mem_remove h2) ht
  · intro f hf
    exact hB.valid f (mem_of_mem_remove hf)

/-- Processing an earliest event preserves the temporal invariant. -/
theorem invB_processEvent {cfg : Config} {s : SimState} {e : Event}
    (hA : InvA cfg s) (hB : InvB cfg s) (he : e ∈ s.queue)
    (hmin : ∀ x ∈ s.queue, Event.before e x = true) :
    InvB cfg (processEvent cfg s e) := by
  have hAb : InvA cfg (removeEvent s e) := invA_removeEvent hA hmin
  have hne := remove_target_ne hB he
  show InvB cfg (resume cfg e.target (removeEvent s e))
  rcases htp : e.target with i | i
  · rw [htp] at hne
    have hBb : InvB cfg (removeEvent s e) :=
      invB_remove_sub_target hA hB he hmin htp
    have hi1 : 1 ≤ i := ((hB.valid e he).1 i htp).1
    have hnotin : Proc.sub i ∉ (removeEvent s e).wet.put_waiters :=
      fun hmem => hB.waiter_no_event (Proc.sub i) (Or.inl hmem) e he htp
    rcases hss : (removeEvent s e).subs[i - 1]? with _ | st
    · have h1 : resume cfg (Proc.sub i) (removeEvent s e) = removeEvent s e := by
        simp [resume, hss]
      rw [h1]
      exact hBb
    · cases st with
      | start =>
          have h1 : resume cfg (Proc.sub i) (removeEvent s e) =
              subClaimWork cfg i (removeEvent s e) := by
            simp [resume, hss]
          rw [h1]
          exact invB_subClaimWork hBb hne hss hnotin hi1
      | producing =>
          have h1 : resume cfg (Proc.sub i) (removeEvent s e) =
              subAttemptPut cfg i true (removeEvent s e) := by
            simp [resume, hss]
          rw [h1]
          refine invB_subAttemptPut hAb hBb hne hss hnotin hi1 ?_
          intro hsubL k tst hk
          exact prefirstput_all_blocked hA hB he hmin hsubL hss htp hi1 k tst hk
      | putBlocked =>
          have h1 : resume cfg (Proc.sub i) (removeEvent s e) =
              subAttemptPut cfg i false (removeEvent s e) := by
            simp [resume, hss]
          rw [h1]
          refine invB_subAttemptPut hAb hBb hne hss hnotin hi1 ?_
          intro hsubL
          exact absurd hss (hB.no_blocked_subs hsubL (i - 1))
      | done =>
          have h1 : resume cfg (Proc.sub i) (removeEvent s e) = removeEvent s e := by
            simp [resume, hss]
          rw [h1]
          exact hBb
  · rw [htp] at hne
    have hBbx : InvBx cfg (removeEvent s e) i :=
      invBx_remove_turb_target hA hB he hmin htp
    have hi1 : 1 ≤ i := ((hB.valid e he).2 i htp).1
    have hilen : i ≤ s.turbs.length := ((hB.valid e he).2 i htp).2
    have hng : Proc.turb i ∉ (removeEvent s e).wet.get_waiters :=
      fun hmem => hB.waiter_no_event (Proc.turb i) (Or.inr (Or.inl hmem)) e he htp
    have hna : Proc.turb i ∉ (removeEvent s e).assembly.put_waiters :=
      fun hmem => hB.waiter_no_event (Proc.turb i) (Or.inr (Or.inr hmem)) e he htp
    rcases hss : (removeEvent s e).turbs[i - 1]? with _ | st
    · exfalso
      have hlt : i - 1 < s.turbs.length := by omega
      have hss2 : s.turbs[i - 1]? = none := hss
      rw [List.getElem?_eq_getElem hlt] at hss2
      cases hss2
    · cases st with
      | start =>
          have h1 : resume cfg (Proc.turb i) (removeEvent s e) =
              turbAttemptGet cfg i true (removeEvent s e) := by
            simp [resume, hss]
          rw [h1]
          refine invB_turbAttemptGet hA.wet_balance hBbx hne hss ?_ hng hna hi1
          intro g hg hstate
          refine Or.inr ?_
          intro hcon
          rw [hcon] at hstate
          rw [hss] at hstate
          cases hstate
      | getBlocked =>
          have h1 : resume cfg (Proc.turb i) (removeEvent s e) =
              turbAttemptGet cfg i false (removeEvent s e) := by
            simp [resume, hss]
          rw [h1]
          refine invB_turbAttemptGet hA.wet_balance hBbx hne hss ?_ hng hna hi1
          intro g hg hstate
          refine Or.inr ?_
          intro hcon
          rw [hcon] at hstate
          rw [hss] at hstate
          cases hstate
      | assembling t0 =>
          have h1 : resume cfg (Proc.turb i) (removeEvent s e) =
              turbAttemptPut cfg i t0 true (removeEvent s e) := by
            simp [resume, hss]
          rw [h1]
          refine invB_turbAttemptPut hAb hBbx hne hss (Or.inl rfl) ?_ hng hna hi1
          intro h0
          have het : e.time = t0 + cfg.turbine_takt := by
            refine hB.assembling_time (i - 1) t0 e hss he ?_
            rw [htp]
            congr 1
            omega
          exact het
      | putBlocked t0 =>
          have h1 : resume cfg (Proc.turb i) (removeEvent s e) =
              turbAttemptPut cfg i t0 false (removeEvent s e) := by
            simp [resume, hss]
          rw [h1]
          refine invB_turbAttemptPut hAb hBbx hne hss (Or.inr rfl) ?_ hng hna hi1
          intro h0
          exact absurd h0 (hB.putBlocked_log (i - 1) t0 hss)

/-- One scheduler step preserves the temporal invariant. -/
theorem invB_step {cfg : Config} {s s' : SimState}
    (hA : InvA cfg s) (hB : InvB cfg s) (h : step cfg s = some s') :
    InvB cfg s' := by
  unfold step at h
  rcases hp : pickNext s.queue with _ | e
  · rw [hp] at h
    simp at h
  · rw [hp] at h
    simp only [Option.map_some', Option.some.injEq] at h
    rw [← h]
    exact invB_processEvent hA hB (pickNext_mem hp) (pickNext_min hp)

/-- Any number of scheduler steps preserves the temporal invariant. -/
theorem invB_stepN {cfg : Config} (h0 : 0 ≤ cfg.takt_time)
    (h6 : 0 ≤ cfg.turbine_takt) :
    ∀ (n : ℕ) (s : SimState), InvA cfg s → InvB cfg s →
      InvB cfg (stepN cfg n s) := by
  intro n
  induction n with
  | zero => intro s hA hB; exact hB
  | succ n ih =>
      intro s hA hB
      simp only [stepN]
      rcases hst : step cfg s with _ | s'
      · exact hB
      · exact ih s' (invA_step h0 h6 hA hst) (invB_step hA hB hst)

/-- C7: in every run (wet storage starts empty at setup), every removal
    from wet storage happens no earlier than the first substructure
    deposit, the head of the deposit log is the earliest deposit
    (substructure_ready_time), and with turbine cadence 6 h the first
    turbine completion equals substructure_ready_time + 6 while no turbine
    completion is ever earlier than that. -/
theorem claim_C7_first_turbine_timing (cfg : Config) (s0 s : SimState)
    (n : ℕ)
    (hsetup : MooredSubInstallation.setup_simulation cfg = Except.ok s0)
    (h6 : cfg.turbine_takt = 6) (hs : s = stepN cfg n s0) :
    (∀ h y, s.subLog.head? = some h → y ∈ s.subLog → h.2 ≤ y.2) ∧
    (∀ g ∈ s.getLog, ∃ h, s.subLog.head? = some h ∧ h.2 ≤ g.2) ∧
    (∀ x, s.turbLog.head? = some x →
      ∃ h, s.subLog.head? = some h ∧ x.2 = h.2 + 6) ∧
    (∀ x ∈ s.turbLog, ∀ h, s.subLog.head? = some h → h.2 + 6 ≤ x.2) := by
  rcases setup_simulation_inv hsetup with ⟨h1, h2, h3, h4, rfl⟩
  have hA := invA_stepN h1 h2 n _ (invA_setupState cfg h3 h4)
  have hB := invB_stepN h1 h2 n _ (invA_setupState cfg h3 h4)
    (invB_setupState cfg)
  rw [← hs] at hA hB
  have hfirst : ∀ x, s.turbLog.head? = some x →
      ∃ h, s.subLog.head? = some h ∧ x.2 = h.2 + 6 := by
    intro x hx
    obtain ⟨g, hg, hxg⟩ := hB.turb_head_eq x hx
    obtain ⟨h, hh, hge⟩ := hB.get_head_eq g hg
    refine ⟨h, hh, ?_⟩
    rw [hxg, hge, h6]
  refine ⟨hB.sub_head_min, ?_, hfirst, ?_⟩
  · intro g hg
    obtain ⟨gh, hgh⟩ := head?_some_of_mem hg
    obtain ⟨h, hh, hge⟩ := hB.get_head_eq gh hgh
    refine ⟨h, hh, ?_⟩
    rw [← hge]
    exact hB.get_head_min gh g hgh hg
  · intro x hx h hh
    obtain ⟨xh, hxh⟩ := head?_some_of_mem hx
    obtain ⟨h2x, hh2, hxe⟩ := hfirst xh hxh
    rw [hh2] at hh
    injection hh with hh
    rw [← hh, ← hxe]
    exact hB.turb_head_min xh x hxh hx

/-- Witness for C7 on the cfgA scenario (cadence 6 h) after its 7-event
    complete run. -/
theorem claim_C7_witness :
    (∀ h y, (stepN cfgA 7 s0A).subLog.head? = some h →
      y ∈ (stepN cfgA 7 s0A).subLog → h.2 ≤ y.2) ∧
    (∀ g ∈ (stepN cfgA 7 s0A).getLog, ∃ h,
      (stepN cfgA 7 s0A).subLog.head? = some h ∧ h.2 ≤ g.2) ∧
    (∀ x, (stepN cfgA 7 s0A).turbLog.head? = some x →
      ∃ h, (stepN cfgA 7 s0A).subLog.head? = some h ∧ x.2 = h.2 + 6) ∧
    (∀ x ∈ (stepN cfgA 7 s0A).turbLog, ∀ h,
      (stepN cfgA 7 s0A).subLog.head? = some h → h.2 + 6 ≤ x.2) :=
  claim_C7_first_turbine_timing cfgA s0A (stepN cfgA 7 s0A) 7 rfl rfl rfl

end ORBIT
